import Mathlib

/-! supertine-rs: the two Go programs, embedded and verified

* `src/count/count.go` (WordFrequencyReporter): lowercases a text, strips the
  periods, splits on single spaces, sorts the tokens and prints every distinct
  token once together with `strings.Count` of the token in the normalized text.
* `src/wait.go` (IdentifierHeartbeat): reads 16 random bytes, formats them as
  five hyphen-separated groups of uppercase hex digits and logs that
  identifier ten times, sleeping one second after every line.

A Go string is modelled by the sequence of its Unicode code points, which
covers every string holding valid UTF-8.  On such strings byte-wise substring
search, byte-wise splitting on an ASCII separator and byte-wise comparison
agree with their code-point counterparts (UTF-8 is self-synchronising and
order preserving), so the library functions below are stated on code points.
The functions of the Go standard library (`strings`, `sort`, `fmt`,
`strconv`) follow the control flow of their Go implementation.  The Unicode
case and printability tables of the runtime are a parameter.
-/

namespace Supertine

/-- A Go string holding valid UTF-8, as the list of its code points. -/
abbrev GoString := List Char

/-- The Unicode tables of the Go runtime that the library consults for runes
outside the ranges it decides directly. -/
structure UnicodeTables where
  /-- The table lookup `unicode.To(unicode.LowerCase, r)`, used for `r > unicode.MaxASCII`. -/
  lowerCase : Char → Char
  /-- The table lookup at the end of `strconv.IsPrint`, used for `r > 0xFF`. -/
  printable : Char → Bool

/-! ## Package `strings` -/

/-- The ASCII branch shared by `strings.ToLower` and `unicode.ToLower`:
`if 'A' <= c && c <= 'Z' then c += 'a' - 'A'`. -/
def asciiLower (c : Char) : Char :=
  if 65 ≤ c.toNat ∧ c.toNat ≤ 90 then Char.ofNat (c.toNat + 32) else c

/-- Go `unicode.ToLower(r)`. -/
def unicodeToLower (tbl : UnicodeTables) (r : Char) : Char :=
  if r.toNat ≤ 0x7F then asciiLower r else tbl.lowerCase r

/-- Go `strings.ToLower(s)`: an ASCII-only string is handled directly (and
returned unchanged when it has no upper-case letter), any other string is
mapped rune by rune through `unicode.ToLower`. -/
def ToLower (tbl : UnicodeTables) (s : GoString) : GoString :=
  let isASCII := s.all (fun c => decide (c.toNat < 0x80))
  let hasUpper := s.any (fun c => decide (65 ≤ c.toNat ∧ c.toNat ≤ 90))
  if isASCII then
    if !hasUpper then s else s.map asciiLower
  else s.map (unicodeToLower tbl)

/-- Go `strings.HasPrefix(s, pre)`. -/
def HasPrefix (s pre : GoString) : Bool := pre.isPrefixOf s

/-- Go `strings.Index(s, substr)`: the index of the first instance of
`substr` in `s`, `none` for Go's `-1`. -/
def Index : GoString → GoString → Option Nat
  | [], substr => if substr.isEmpty then some 0 else none
  | c :: s, substr =>
    if HasPrefix (c :: s) substr then some 0 else (Index s substr).map (· + 1)

/-- The `for` loop of `strings.Count` for `len(substr) > 1`:
`i := Index(s, substr); if i == -1 return n; n++; s = s[i+len(substr):]`.
Every iteration that does not return shortens `s`, so `len(s) + 1` iterations
always reach the `return` (see `countLoop_fuel`). -/
def countLoop (substr : GoString) : Nat → GoString → Nat → Nat
  | 0, _, n => n
  | fuel + 1, s, n =>
    match Index s substr with
    | none => n
    | some i => countLoop substr fuel (s.drop (i + substr.length)) (n + 1)

/-- Go `strings.Count(s, substr)`: `utf8.RuneCountInString(s) + 1` for the
empty `substr`, `bytealg.CountString` for a one-byte `substr`, the
`Index` loop otherwise. -/
def Count (s substr : GoString) : Nat :=
  match substr with
  | [] => s.length + 1
  | [c] => if c.toNat < 0x80 then s.count c else countLoop [c] (s.length + 1) s 0
  | _ => countLoop substr (s.length + 1) s 0

/-- The replacement loop of `strings.Replace` for a non-empty `old`; it runs
`n` times: `j := start + Index(s[start:], old)`, write `s[start:j]`, write
`new`, `start = j + len(old)`; after the loop the rest of `s` is written. -/
def replaceLoop (old new : GoString) : Nat → GoString → GoString
  | 0, s => s
  | n + 1, s =>
    match Index s old with
    | none => s
    | some j => s.take j ++ new ++ replaceLoop old new n (s.drop (j + old.length))

/-- Go `strings.ReplaceAll(s, old, new)`, that is `Replace(s, old, new, -1)`:
`s` itself when `old == new` or when `old` does not occur, else
`Count(s, old)` replacements. -/
def ReplaceAll (s old new : GoString) : GoString :=
  if old = new then s
  else
    let m := Count s old
    if m = 0 then s
    else
      match old with
      | [] => new ++ s.flatMap (fun c => c :: new)
      | _ => replaceLoop old new m s

/-- The loop of `strings.genSplit` for a non-empty `sep` and `sepSave = 0`;
`n` is the remaining number of separators to cut at:
`m := Index(s, sep); if m < 0 break; a[i] = s[:m]; s = s[m+len(sep):]`,
and after the loop `a[i] = s`. -/
def genSplitLoop (sep : GoString) : Nat → GoString → List GoString
  | 0, s => [s]
  | n + 1, s =>
    match Index s sep with
    | none => [s]
    | some m => s.take m :: genSplitLoop sep n (s.drop (m + sep.length))

/-- Go `strings.Split(s, sep)`, that is `genSplit(s, sep, 0, -1)`: one string
per rune for the empty `sep`, else `Count(s, sep) + 1` pieces. -/
def Split (s sep : GoString) : List GoString :=
  match sep with
  | [] => s.map (fun c => [c])
  | _ => genSplitLoop sep (Count s sep) s

/-! ## String comparison and package `sort` -/

/-- Go `a < b` on strings: lexicographic comparison, here of the code points;
the comparison of the bytes gives the same (`stringLess_eq_bytesLess`). -/
def stringLess : GoString → GoString → Bool
  | [], [] => false
  | [], _ :: _ => true
  | _ :: _, [] => false
  | a :: as, b :: bs =>
    if a.toNat < b.toNat then true
    else if b.toNat < a.toNat then false
    else stringLess as bs

/-- Go `utf8.AppendRune`: the bytes of the code point `n` in UTF-8. -/
def utf8Encode (n : Nat) : List Nat :=
  if n < 0x80 then [n]
  else if n < 0x800 then [0xC0 + n / 64, 0x80 + n % 64]
  else if n < 0x10000 then [0xE0 + n / 4096, 0x80 + n / 64 % 64, 0x80 + n % 64]
  else [0xF0 + n / 262144, 0x80 + n / 4096 % 64, 0x80 + n / 64 % 64, 0x80 + n % 64]

/-- The bytes of a Go string. -/
def utf8Bytes (s : GoString) : List Nat := s.flatMap (fun c => utf8Encode c.toNat)

/-- Lexicographic comparison of the bytes of two strings, as the Go runtime
compares strings. -/
def bytesLess : List Nat → List Nat → Bool
  | [], [] => false
  | [], _ :: _ => true
  | _ :: _, [] => false
  | a :: as, b :: bs =>
    if a < b then true
    else if b < a then false
    else bytesLess as bs

/-- The inner loop of Go `insertionSortLessFunc`:
`for j := i; j > a && less(data[j], data[j-1]); j-- then swap(j, j-1)`.
The sorted part to the left of `x` is passed right-to-left. -/
def insertLeftward {α : Type} (less : α → α → Bool) (x : α) : List α → List α
  | [] => [x]
  | y :: ys => if less x y then y :: insertLeftward less x ys else x :: y :: ys

/-- The outer loop of Go `insertionSortLessFunc`; `done` is the sorted part,
right-to-left. -/
def insertionSortLoop {α : Type} (less : α → α → Bool) : List α → List α → List α
  | done, [] => done.reverse
  | done, x :: rest => insertionSortLoop less (insertLeftward less x done) rest

/-- Go `sort.Slice(x, less)`.  The library sorts with a pattern-defeating
quicksort that is an insertion sort up to 12 elements; it promises a sorted
permutation and no stability.  For `stringLess` the sorted permutation is
unique (`sortSlice_unique`), so the insertion sort gives the result of
`sort.Slice` at every length. -/
def sortSlice {α : Type} (less : α → α → Bool) (x : List α) : List α :=
  insertionSortLoop less [] x

/-! ## Packages `strconv` and `fmt` -/

/-- The digit strings `"0123456789abcdef"` and `"0123456789ABCDEF"` of `strconv` and `fmt`. -/
def ldigits : GoString := "0123456789abcdef".toList

def udigits : GoString := "0123456789ABCDEF".toList

/-- Go `strconv.IsPrint(r)`. -/
def IsPrint (tbl : UnicodeTables) (r : Char) : Bool :=
  if r.toNat ≤ 0xFF then
    if 0x20 ≤ r.toNat ∧ r.toNat ≤ 0x7E then true
    else if 0xA1 ≤ r.toNat ∧ r.toNat ≤ 0xFF then r.toNat != 0xAD
    else false
  else tbl.printable r

/-- The loop `for s := k; s >= 0; s -= 4 then append lowerhex[r>>s & 0xF]` of
`strconv.appendEscapedRune`, for `digits` hex digits. -/
def hexEscapeDigits (r : Nat) : Nat → GoString
  | 0 => []
  | digits + 1 => ldigits.getD (r / 16 ^ digits % 16) '0' :: hexEscapeDigits r digits

/-- Go `strconv.appendEscapedRune(buf, r, '"', false, false)`: what is appended for `r`. -/
def appendEscapedRune (tbl : UnicodeTables) (r : Char) : GoString :=
  if r = '"' ∨ r = '\\' then ['\\', r]
  else if IsPrint tbl r then [r]
  else if r.toNat = 7 then ['\\', 'a']
  else if r.toNat = 8 then ['\\', 'b']
  else if r.toNat = 12 then ['\\', 'f']
  else if r.toNat = 10 then ['\\', 'n']
  else if r.toNat = 13 then ['\\', 'r']
  else if r.toNat = 9 then ['\\', 't']
  else if r.toNat = 11 then ['\\', 'v']
  else if r.toNat < 0x20 ∨ r.toNat = 0x7F then '\\' :: 'x' :: hexEscapeDigits r.toNat 2
  else if r.toNat < 0x10000 then '\\' :: 'u' :: hexEscapeDigits r.toNat 4
  else '\\' :: 'U' :: hexEscapeDigits r.toNat 8

/-- Go `strconv.Quote(s)`, which is what the verb `%q` prints for a string. -/
def Quote (tbl : UnicodeTables) (s : GoString) : GoString :=
  '"' :: s.flatMap (appendEscapedRune tbl) ++ ['"']

/-- The digit loop of `fmt.fmtInteger` in base 10:
`for u >= 10 then i--; next := u / 10; buf[i] = '0' + u - next*10; u = next`,
then `i--; buf[i] = digits[u]`. -/
def fmtIntegerLoop : Nat → Nat → GoString → GoString
  | 0, u, buf => ldigits.getD u '0' :: buf
  | fuel + 1, u, buf =>
    if u ≥ 10 then fmtIntegerLoop fuel (u / 10) (Char.ofNat (48 + (u - u / 10 * 10)) :: buf)
    else ldigits.getD u '0' :: buf

/-- The verb `%d` on a non-negative `int`. -/
def fmtD (n : Nat) : GoString := fmtIntegerLoop n n []

/-! ## `src/count/count.go` -/

/-- The package variable `text` of `count.go`. -/
def text : GoString :=
  "However, under extreme overload, the service might not even be able to compute and serve degraded responses. At this point it may have no immediate option but to serve errors. One way to mitigate this scenario is to balance traffic across datacenters such that no datacenter receives more traffic than it has the capacity to process. For example, if a datacenter runs 100 backend tasks and each task can process up to 500 requests per second, the load balancing algorithm will not allow more than 50,000 queries per second to be sent to that datacenter. However, even this constraint can prove insufficient to avoid overload when you're operating at scale. At the end of the day, it's best to build clients and backends to handle resource restrictions gracefully: redirect when possible, serve degraded results when necessary, and handle resource errors transparently when all else fails.".toList

/-- One call `fmt.Printf("word %q appears %d\n", word, count)`. -/
structure PrintfCall where
  word : GoString
  count : Nat
  deriving DecidableEq

/-- What one `fmt.Printf("word %q appears %d\n", word, count)` writes to standard output. -/
def PrintfCall.render (tbl : UnicodeTables) (p : PrintfCall) : GoString :=
  "word ".toList ++ Quote tbl p.word ++ " appears ".toList ++ fmtD p.count ++ [Char.ofNat 10]

/-- The state of the `for ... range textToSlice` loop of `main`: the map
`alreadyPrinted` (newest binding first) and the `Printf` calls made so far. -/
structure LoopState where
  alreadyPrinted : List (GoString × Bool)
  printed : List PrintfCall

/-- The body of the loop of `main`:
`if _, ok := alreadyPrinted[word]; !ok then Printf(...); alreadyPrinted[word] = true`. -/
def loopBody (textWithoutPunctuation : GoString) (st : LoopState) (word : GoString) : LoopState :=
  match st.alreadyPrinted.lookup word with
  | some _ => st
  | none =>
    { alreadyPrinted := (word, true) :: st.alreadyPrinted
      printed := st.printed ++ [⟨word, Count textWithoutPunctuation word⟩] }

/-- The normalized text: `strings.ReplaceAll(strings.ToLower(text), ".", "")`. -/
def normalize (tbl : UnicodeTables) (text : GoString) : GoString :=
  ReplaceAll (ToLower tbl text) ['.'] []

/-- The token sequence: `strings.Split(textWithoutPunctuation, " ")`. -/
def tokens (tbl : UnicodeTables) (text : GoString) : List GoString :=
  Split (normalize tbl text) [' ']

/-- The function `main` of `count.go`, run on `text`: the `Printf` calls it makes, in order. -/
def countMain (tbl : UnicodeTables) (text : GoString) : List PrintfCall :=
  let textToLower := ToLower tbl text
  let textWithoutPunctuation := ReplaceAll textToLower ['.'] []
  let textToSlice := Split textWithoutPunctuation [' ']
  let textToSlice := sortSlice stringLess textToSlice
  (textToSlice.foldl (loopBody textWithoutPunctuation) ⟨[], []⟩).printed

/-- The tokens printed by `main`, one per output line, in output order. -/
def printedTokens (tbl : UnicodeTables) (text : GoString) : List GoString :=
  (countMain tbl text).map PrintfCall.word

/-- The standard output of `main`, one element per `Printf` call. -/
def countMainLines (tbl : UnicodeTables) (text : GoString) : List GoString :=
  (countMain tbl text).map (PrintfCall.render tbl)

/-- The standard output of `main`. -/
def countMainStdout (tbl : UnicodeTables) (text : GoString) : GoString :=
  (countMainLines tbl text).flatten

/-! ## `src/wait.go` -/

/-- What a run of `wait.go` gets from outside the program. -/
structure World where
  /-- The `err` that `rand.Read(b)` returns: `none` for `nil`, `some msg` for an
  error whose `Error()` text is `msg`. -/
  randErr : Option GoString
  /-- The entropy: what `rand.Read` stores in `b[i]` is `randBytes i` as a byte. -/
  randBytes : Nat → Nat
  /-- The successive readings of `time.Now()`. -/
  now : Nat → Nat

/-- The calls of `main` in `wait.go` that act on the outside. -/
inductive Effect where
  /-- The call `fmt.Println(operands...)`, the operands already turned into text. -/
  | fmtPrintln (operands : List GoString)
  /-- The call `log.Println(now, uuid)`: one heartbeat line. -/
  | logPrintln (now : Nat) (uuid : GoString)
  /-- The call `time.Sleep(d)`, `d` in nanoseconds. -/
  | sleep (d : Nat)
  deriving DecidableEq

/-- Go `time.Second`, in nanoseconds. -/
def Second : Nat := 1000000000

/-- Go `make([]byte, n)`. -/
def makeBytes (n : Nat) : List Nat := List.replicate n 0

/-- Go `rand.Read(b)`: with a `nil` error every `b[i]` holds a random byte. -/
def randRead (w : World) (b : List Nat) : List Nat × Option GoString :=
  match w.randErr with
  | some err => (b, some err)
  | none => ((List.range b.length).map (fun i => w.randBytes i % 256), none)

/-- The slice expression `b[lo:hi]`. -/
def slice (b : List Nat) (lo hi : Nat) : List Nat := (b.take hi).drop lo

/-- Go `fmt.fmtSbx` without flags, the verbs `%x` and `%X` on a byte slice:
`for each c then append digits[c>>4], digits[c&0xF]`. -/
def fmtSbx (digits : GoString) (b : List Nat) : GoString :=
  b.flatMap (fun c => [digits.getD (c / 16) '0', digits.getD (c % 16) '0'])

/-- The identifier:
`fmt.Sprintf("%X-%X-%X-%X-%X", b[0:4], b[4:6], b[6:8], b[8:10], b[10:])`. -/
def formatUUID (b : List Nat) : GoString :=
  fmtSbx udigits (slice b 0 4) ++ '-' :: fmtSbx udigits (slice b 4 6) ++
    '-' :: fmtSbx udigits (slice b 6 8) ++ '-' :: fmtSbx udigits (slice b 8 10) ++
    '-' :: fmtSbx udigits (b.drop 10)

/-- Go `fmt.Sprintln(operands...)`: the operands separated by one space, then a newline. -/
def Sprintln (operands : List GoString) : GoString :=
  [' '].intercalate operands ++ [Char.ofNat 10]

/-- The state of a run of `wait.go`: the effects so far and the number of
clock readings taken. -/
structure Run where
  trace : List Effect
  clock : Nat

/-- The loop `for i := 0; i < 10; i++` of `wait.go` with `k` iterations left;
the body is `log.Println(time.Now(), uuid); time.Sleep(1 * time.Second)`. -/
def heartbeatLoop (w : World) (uuid : GoString) : Nat → Run → Run
  | 0, r => r
  | k + 1, r =>
    heartbeatLoop w uuid k
      { trace := r.trace ++ [Effect.logPrintln (w.now r.clock) uuid, Effect.sleep (1 * Second)]
        clock := r.clock + 1 }

/-- The function `main` of `wait.go`: the effects of a run, in order. -/
def waitMain (w : World) : List Effect :=
  let b := makeBytes 16
  match randRead w b with
  | (_, some err) => [Effect.fmtPrintln ["Error: ".toList, err]]
  | (b, none) =>
    let uuid := formatUUID b
    (heartbeatLoop w uuid 10 ⟨[], 0⟩).trace

/-! ## Notions the properties are stated with -/

/-- The order `a <= b` of Go strings, as the negation of `b < a`. -/
def stringLe (a b : GoString) : Prop := stringLess b a = false

instance : DecidableRel stringLe := fun a b => by unfold stringLe; infer_instance

/-- The distinct elements of a list in first-seen order: every element is
kept at its first occurrence and dropped at the later ones. -/
def firstSeen : List GoString → List GoString
  | [] => []
  | w :: ws => w :: (firstSeen ws).filter (fun v => v != w)

/-- The number of occurrences of the non-empty `substr` in a string, scanning
left to right and never letting two counted occurrences overlap: at a
position where `substr` starts it is counted and the scan resumes right
after it (`skip` is the number of characters still covered by the
occurrence counted last). -/
def occurrences (substr : GoString) : GoString → Nat → Nat
  | [], _ => 0
  | _ :: s, skip + 1 => occurrences substr s skip
  | c :: s, 0 =>
    if substr <+: c :: s then occurrences substr s (substr.length - 1) + 1
    else occurrences substr s 0

/-- Tables for running the programs on texts in ASCII, where no table is consulted. -/
def noTables : UnicodeTables := ⟨id, fun _ => false⟩

/-- The number a string of decimal digits stands for. -/
def decimalValue (ds : GoString) : Nat :=
  ds.foldl (fun acc c => acc * 10 + (c.toNat - 48)) 0

/-- The line `word "<token>" appears <N>` with the token written character for character. -/
def plainLine (token : GoString) (n : Nat) : GoString :=
  "word ".toList ++ '"' :: token ++ '"' :: " appears ".toList ++ fmtD n ++ [Char.ofNat 10]

/-- A character that `%q` writes as it is: printable, and neither the quote nor the backslash. -/
def writtenPlain (tbl : UnicodeTables) (c : Char) : Bool :=
  IsPrint tbl c && c != '"' && c != '\\'

/-- The characters `0`-`9` and `A`-`F`. -/
def isUpperHexDigit (c : Char) : Bool :=
  (48 ≤ c.toNat && c.toNat ≤ 57) || (65 ≤ c.toNat && c.toNat ≤ 70)

/-- The value of a hex digit. -/
def hexValue (c : Char) : Nat :=
  if c.toNat ≤ 57 then c.toNat - 48 else c.toNat - 55

/-- The bytes that a string of hex digits encodes, two digits per byte. -/
def decodeHex : GoString → List Nat
  | hi :: lo :: rest => (hexValue hi * 16 + hexValue lo) :: decodeHex rest
  | _ => []

/-- The heartbeat lines of a trace: the clock reading and the identifier of
every `log.Println` call, in order. -/
def heartbeatLines (trace : List Effect) : List (Nat × GoString) :=
  trace.filterMap (fun e =>
    match e with
    | Effect.logPrintln now uuid => some (now, uuid)
    | _ => none)

/-- The sleeps of a trace: the duration of every `time.Sleep` call, in order. -/
def sleeps (trace : List Effect) : List Nat :=
  trace.filterMap (fun e =>
    match e with
    | Effect.sleep d => some d
    | _ => none)

/-- The lines written by `fmt.Println` in a trace, in order. -/
def diagnosticLines (trace : List Effect) : List GoString :=
  trace.filterMap (fun e =>
    match e with
    | Effect.fmtPrintln operands => some (Sprintln operands)
    | _ => none)

/-- A world in which `rand.Read` succeeds, for running `wait.go`. -/
def okWorld : World := ⟨none, fun i => 17 * i + 200, fun i => 1000 + i⟩

/-- A world in which `rand.Read` fails with the error "EOF". -/
def errWorld : World := ⟨some "EOF".toList, fun _ => 0, fun _ => 0⟩

/-- An ASCII upper-case letter, `A`-`Z`. -/
def isASCIIUpper (c : Char) : Bool := 65 ≤ c.toNat && c.toNat ≤ 90

/-- The bytes read back from an identifier: its hex digits, hyphens left out,
two digits per byte. -/
def decodeUUID (uuid : GoString) : List Nat :=
  decodeHex (uuid.filter (fun c => c != '-'))

/-! ## The order of Go strings -/

theorem char_toNat_inj {a b : Char} (h : a.toNat = b.toNat) : a = b := by
  rw [← Char.ofNat_toNat a, ← Char.ofNat_toNat b, h]

theorem stringLess_irrefl (a : GoString) : stringLess a a = false := by
  induction a with
  | nil => rfl
  | cons c cs ih => simp [stringLess, ih]

theorem stringLess_trans : ∀ {a b c : GoString},
    stringLess a b = true → stringLess b c = true → stringLess a c = true
  | [], [], _, h, _ => by simp [stringLess] at h
  | [], _ :: _, [], _, h => by simp [stringLess] at h
  | [], _ :: _, _ :: _, _, _ => by simp [stringLess]
  | _ :: _, [], _, h, _ => by simp [stringLess] at h
  | _ :: _, _ :: _, [], _, h => by simp [stringLess] at h
  | x :: xs, y :: ys, z :: zs, h₁, h₂ => by
    simp only [stringLess] at h₁ h₂ ⊢
    by_cases hxy : x.toNat < y.toNat
    · by_cases hyz : y.toNat < z.toNat
      · rw [if_pos (by omega)]
      · by_cases hzy : z.toNat < y.toNat
        · simp [hyz, hzy] at h₂
        · rw [if_pos (by omega)]
    · by_cases hyx : y.toNat < x.toNat
      · simp [hxy, hyx] at h₁
      · simp only [hxy, hyx, if_false] at h₁
        by_cases hyz : y.toNat < z.toNat
        · rw [if_pos (by omega)]
        · by_cases hzy : z.toNat < y.toNat
          · simp [hyz, hzy] at h₂
          · simp only [hyz, hzy, if_false] at h₂
            rw [if_neg (by omega), if_neg (by omega)]
            exact stringLess_trans h₁ h₂

theorem stringLess_asymm {a b : GoString} (h : stringLess a b = true) :
    stringLess b a = false := by
  cases hba : stringLess b a with
  | false => rfl
  | true =>
    have := stringLess_trans h hba
    rw [stringLess_irrefl] at this
    exact absurd this (by decide)

theorem stringLess_connected : ∀ {a b : GoString},
    stringLess a b = false → stringLess b a = false → a = b
  | [], [], _, _ => rfl
  | [], _ :: _, h, _ => by simp [stringLess] at h
  | _ :: _, [], _, h => by simp [stringLess] at h
  | x :: xs, y :: ys, h₁, h₂ => by
    simp only [stringLess] at h₁ h₂
    by_cases hxy : x.toNat < y.toNat
    · simp [hxy] at h₁
    · by_cases hyx : y.toNat < x.toNat
      · simp [hyx] at h₂
      · simp only [hxy, hyx, if_false] at h₁ h₂
        rw [char_toNat_inj (show x.toNat = y.toNat by omega), stringLess_connected h₁ h₂]

theorem stringLe_trans {a b c : GoString} (h₁ : stringLe a b) (h₂ : stringLe b c) :
    stringLe a c := by
  unfold stringLe at *
  cases hca : stringLess c a with
  | false => rfl
  | true =>
    cases hba' : stringLess a b with
    | true => rw [stringLess_trans hca hba'] at h₂; exact h₂
    | false =>
      have hab := stringLess_connected hba' h₁
      subst hab
      rw [hca] at h₂; exact h₂

theorem stringLe_antisymm {a b : GoString} (h₁ : stringLe a b) (h₂ : stringLe b a) : a = b :=
  stringLess_connected h₂ h₁

/-! ## Comparing code points is comparing bytes -/

theorem bytesLess_append_left (p x y : List Nat) :
    bytesLess (p ++ x) (p ++ y) = bytesLess x y := by
  induction p with
  | nil => rfl
  | cons a p ih =>
    simp only [List.cons_append, bytesLess, Nat.lt_irrefl, if_false]
    exact ih

theorem utf8Encode_ne_nil (n : Nat) : ∃ a as, utf8Encode n = a :: as := by
  unfold utf8Encode
  split_ifs <;> exact ⟨_, _, rfl⟩

theorem bytesLess_cons_of_lt {a b : Nat} (h : a < b) (as bs : List Nat) :
    bytesLess (a :: as) (b :: bs) = true ∧ bytesLess (b :: bs) (a :: as) = false := by
  constructor
  · rw [bytesLess, if_pos h]
  · rw [bytesLess, if_neg (Nat.lt_asymm h), if_pos h]

theorem bytesLess_cons_self (a : Nat) (as bs : List Nat) :
    bytesLess (a :: as) (a :: bs) = bytesLess as bs := by
  rw [bytesLess, if_neg (Nat.lt_irrefl a), if_neg (Nat.lt_irrefl a)]

theorem bytesLess_of_lex2 {a₁ a₂ b₁ b₂ : Nat} (h : a₁ < b₁ ∨ (a₁ = b₁ ∧ a₂ < b₂))
    (as bs : List Nat) :
    bytesLess (a₁ :: a₂ :: as) (b₁ :: b₂ :: bs) = true ∧
      bytesLess (b₁ :: b₂ :: bs) (a₁ :: a₂ :: as) = false := by
  rcases h with h | ⟨rfl, h⟩
  · exact bytesLess_cons_of_lt h _ _
  · rw [bytesLess_cons_self, bytesLess_cons_self]
    exact bytesLess_cons_of_lt h _ _

theorem bytesLess_of_lex3 {a₁ a₂ a₃ b₁ b₂ b₃ : Nat}
    (h : a₁ < b₁ ∨ (a₁ = b₁ ∧ (a₂ < b₂ ∨ (a₂ = b₂ ∧ a₃ < b₃)))) (as bs : List Nat) :
    bytesLess (a₁ :: a₂ :: a₃ :: as) (b₁ :: b₂ :: b₃ :: bs) = true ∧
      bytesLess (b₁ :: b₂ :: b₃ :: bs) (a₁ :: a₂ :: a₃ :: as) = false := by
  rcases h with h | ⟨rfl, h⟩
  · exact bytesLess_cons_of_lt h _ _
  · rw [bytesLess_cons_self, bytesLess_cons_self]
    exact bytesLess_of_lex2 h _ _

theorem bytesLess_of_lex4 {a₁ a₂ a₃ a₄ b₁ b₂ b₃ b₄ : Nat}
    (h : a₁ < b₁ ∨ (a₁ = b₁ ∧ (a₂ < b₂ ∨ (a₂ = b₂ ∧ (a₃ < b₃ ∨ (a₃ = b₃ ∧ a₄ < b₄))))))
    (as bs : List Nat) :
    bytesLess (a₁ :: a₂ :: a₃ :: a₄ :: as) (b₁ :: b₂ :: b₃ :: b₄ :: bs) = true ∧
      bytesLess (b₁ :: b₂ :: b₃ :: b₄ :: bs) (a₁ :: a₂ :: a₃ :: a₄ :: as) = false := by
  rcases h with h | ⟨rfl, h⟩
  · exact bytesLess_cons_of_lt h _ _
  · rw [bytesLess_cons_self, bytesLess_cons_self]
    exact bytesLess_of_lex3 h _ _

/-- UTF-8 preserves the order of the code points, whatever follows them. -/
theorem bytesLess_utf8Encode {n m : Nat} (h : n < m) (as bs : List Nat) :
    bytesLess (utf8Encode n ++ as) (utf8Encode m ++ bs) = true ∧
    bytesLess (utf8Encode m ++ bs) (utf8Encode n ++ as) = false := by
  unfold utf8Encode
  by_cases n1 : n < 0x80
  · rw [if_pos n1]
    by_cases m1 : m < 0x80
    · rw [if_pos m1]
      exact bytesLess_cons_of_lt h _ _
    · rw [if_neg m1]
      split_ifs <;> exact bytesLess_cons_of_lt (by omega) _ _
  · rw [if_neg n1]
    have m1 : ¬ m < 0x80 := by omega
    rw [if_neg m1]
    by_cases n2 : n < 0x800
    · rw [if_pos n2]
      by_cases m2 : m < 0x800
      · rw [if_pos m2]
        exact bytesLess_of_lex2 (by omega) _ _
      · rw [if_neg m2]
        split_ifs <;> exact bytesLess_cons_of_lt (by omega) _ _
    · rw [if_neg n2]
      have m2 : ¬ m < 0x800 := by omega
      rw [if_neg m2]
      by_cases n3 : n < 0x10000
      · rw [if_pos n3]
        by_cases m3 : m < 0x10000
        · rw [if_pos m3]
          exact bytesLess_of_lex3 (by omega) _ _
        · rw [if_neg m3]
          exact bytesLess_cons_of_lt (by omega) _ _
      · rw [if_neg n3]
        have m3 : ¬ m < 0x10000 := by omega
        rw [if_neg m3]
        exact bytesLess_of_lex4 (by omega) _ _

/-- Go compares the bytes of two strings; on the code points this is `stringLess`. -/
theorem stringLess_eq_bytesLess : ∀ a b : GoString,
    stringLess a b = bytesLess (utf8Bytes a) (utf8Bytes b)
  | [], [] => rfl
  | [], d :: bs => by
    obtain ⟨x, xs, hx⟩ := utf8Encode_ne_nil d.toNat
    simp [stringLess, utf8Bytes, hx, bytesLess]
  | c :: as, [] => by
    obtain ⟨x, xs, hx⟩ := utf8Encode_ne_nil c.toNat
    simp [stringLess, utf8Bytes, hx, bytesLess]
  | c :: as, d :: bs => by
    have hc : utf8Bytes (c :: as) = utf8Encode c.toNat ++ utf8Bytes as := by
      simp [utf8Bytes]
    have hd : utf8Bytes (d :: bs) = utf8Encode d.toNat ++ utf8Bytes bs := by
      simp [utf8Bytes]
    rw [hc, hd, stringLess]
    rcases Nat.lt_trichotomy c.toNat d.toNat with h | h | h
    · rw [if_pos h, (bytesLess_utf8Encode h (utf8Bytes as) (utf8Bytes bs)).1]
    · rw [if_neg (by omega), if_neg (by omega), h, bytesLess_append_left]
      exact stringLess_eq_bytesLess as bs
    · rw [if_neg (by omega), if_pos h, (bytesLess_utf8Encode h (utf8Bytes bs) (utf8Bytes as)).2]

/-! ## `sort.Slice` yields the sorted permutation -/

theorem insertLeftward_perm {α : Type} (less : α → α → Bool) (x : α) (l : List α) :
    (insertLeftward less x l).Perm (x :: l) := by
  induction l with
  | nil => exact List.Perm.refl _
  | cons y ys ih =>
    simp only [insertLeftward]
    split
    · exact ((List.Perm.cons y ih).trans (List.Perm.swap x y ys))
    · exact List.Perm.refl _

theorem insertionSortLoop_perm {α : Type} (less : α → α → Bool) (rest done : List α) :
    (insertionSortLoop less done rest).Perm (done ++ rest) := by
  induction rest generalizing done with
  | nil => simp [insertionSortLoop]
  | cons x rest ih =>
    simp only [insertionSortLoop]
    refine (ih _).trans ?_
    refine ((insertLeftward_perm less x done).append_right rest).trans ?_
    simpa using (@List.perm_middle _ x done rest).symm

theorem sortSlice_perm {α : Type} (less : α → α → Bool) (x : List α) :
    (sortSlice less x).Perm x := by
  simpa [sortSlice] using insertionSortLoop_perm less x []

/-- The sorted part, read right-to-left, stays descending when `x` is moved into it. -/
theorem insertLeftward_descending (x : GoString) (l : List GoString)
    (h : l.Pairwise (fun a b => stringLe b a)) :
    (insertLeftward stringLess x l).Pairwise (fun a b => stringLe b a) := by
  induction l with
  | nil => simp [insertLeftward]
  | cons y ys ih =>
    rw [List.pairwise_cons] at h
    simp only [insertLeftward]
    cases hxy : stringLess x y with
    | true =>
      simp only [if_true, List.pairwise_cons]
      refine ⟨fun z hz => ?_, ih h.2⟩
      have hz' : z ∈ x :: ys := (insertLeftward_perm stringLess x ys).mem_iff.mp hz
      rw [List.mem_cons] at hz'
      rcases hz' with rfl | hz'
      · exact stringLess_asymm hxy
      · exact h.1 z hz'
    | false =>
      simp only [Bool.false_eq_true, if_false, List.pairwise_cons]
      refine ⟨fun z hz => ?_, h⟩
      simp only [List.mem_cons] at hz
      rcases hz with rfl | hz
      · exact hxy
      · exact stringLe_trans (h.1 z hz) hxy

theorem insertionSortLoop_sorted (rest done : List GoString)
    (h : done.Pairwise (fun a b => stringLe b a)) :
    (insertionSortLoop stringLess done rest).Pairwise stringLe := by
  induction rest generalizing done with
  | nil => simpa [insertionSortLoop, List.pairwise_reverse] using h
  | cons x rest ih =>
    simp only [insertionSortLoop]
    exact ih _ (insertLeftward_descending x done h)

theorem sortSlice_sorted (x : List GoString) : (sortSlice stringLess x).Pairwise stringLe :=
  insertionSortLoop_sorted x [] List.Pairwise.nil

/-- Every sorted permutation of `x` under the order of Go strings is `sortSlice stringLess x`:
`sort.Slice` has one possible result, whatever algorithm it runs. -/
theorem sortSlice_unique (x y : List GoString) (hperm : y.Perm x)
    (hsorted : y.Pairwise stringLe) : y = sortSlice stringLess x :=
  haveI : IsAntisymm GoString stringLe := ⟨fun _ _ h₁ h₂ => stringLe_antisymm h₁ h₂⟩
  List.eq_of_perm_of_sorted (hperm.trans (sortSlice_perm stringLess x).symm) hsorted
    (sortSlice_sorted x)

/-! ## The printing loop of `count.go` -/

theorem mem_firstSeen (l : List GoString) (w : GoString) : w ∈ firstSeen l ↔ w ∈ l := by
  induction l with
  | nil => simp [firstSeen]
  | cons x xs ih =>
    simp only [firstSeen, List.mem_cons, List.mem_filter, ih, bne_iff_ne, ne_eq]
    by_cases h : w = x <;> simp [h]

theorem firstSeen_nodup (l : List GoString) : (firstSeen l).Nodup := by
  induction l with
  | nil => simp [firstSeen]
  | cons x xs ih =>
    simp only [firstSeen, List.nodup_cons, List.mem_filter]
    exact ⟨by simp, ih.filter _⟩

theorem firstSeen_sublist (l : List GoString) : (firstSeen l).Sublist l := by
  induction l with
  | nil => simp [firstSeen]
  | cons x xs ih => exact ((List.filter_sublist _).trans ih).cons₂ x

/-- The loop invariant of `main`: the loop prints, after what was printed
before, the first occurrences of the words that the map does not hold yet,
each with `strings.Count` of the word in the normalized text. -/
theorem foldl_loopBody (twp : GoString) (l : List GoString) (st : LoopState) :
    (l.foldl (loopBody twp) st).printed =
      st.printed ++
        ((firstSeen l).filter (fun w => (st.alreadyPrinted.lookup w).isNone)).map
          (fun w => (⟨w, Count twp w⟩ : PrintfCall)) := by
  induction l generalizing st with
  | nil => simp [firstSeen]
  | cons w ws ih =>
    rw [List.foldl_cons, ih]
    cases h : st.alreadyPrinted.lookup w with
    | some b =>
      have hb : loopBody twp st w = st := by simp [loopBody, h]
      rw [hb]
      congr 2
      simp only [firstSeen, List.filter_cons, h, Option.isNone_some, Bool.false_eq_true,
        if_false, List.filter_filter]
      apply List.filter_congr
      intro v _
      by_cases hv : v = w
      · subst hv; simp [h]
      · simp [hv]
    | none =>
      have hb : loopBody twp st w =
          { alreadyPrinted := (w, true) :: st.alreadyPrinted
            printed := st.printed ++ [⟨w, Count twp w⟩] } := by
        simp [loopBody, h]
      rw [hb]
      simp only [firstSeen, List.filter_cons, h, Option.isNone_none, if_true,
        List.filter_filter, List.map_cons, List.append_assoc, List.singleton_append]
      congr 3
      apply List.filter_congr
      intro v _
      by_cases hv : v = w
      · subst hv; simp [List.lookup]
      · have : (v == w) = false := by simpa using hv
        simp [List.lookup, this, hv]

theorem countMain_eq (tbl : UnicodeTables) (text : GoString) :
    countMain tbl text =
      (firstSeen (sortSlice stringLess (tokens tbl text))).map
        (fun w => (⟨w, Count (normalize tbl text) w⟩ : PrintfCall)) := by
  simp [countMain, tokens, normalize, foldl_loopBody]

theorem printedTokens_eq (tbl : UnicodeTables) (text : GoString) :
    printedTokens tbl text = firstSeen (sortSlice stringLess (tokens tbl text)) := by
  simp [printedTokens, countMain_eq, List.map_map, Function.comp_def]

theorem mem_printedTokens (tbl : UnicodeTables) (text w : GoString) :
    w ∈ printedTokens tbl text ↔ w ∈ tokens tbl text := by
  rw [printedTokens_eq, mem_firstSeen, (sortSlice_perm stringLess _).mem_iff]

theorem printedTokens_nodup (tbl : UnicodeTables) (text : GoString) :
    (printedTokens tbl text).Nodup := by
  rw [printedTokens_eq]; exact firstSeen_nodup _

/-- The printed tokens are strictly ascending. -/
theorem printedTokens_ascending (tbl : UnicodeTables) (text : GoString) :
    (printedTokens tbl text).Pairwise (fun a b => stringLess a b = true) := by
  rw [printedTokens_eq]
  have hs : (firstSeen (sortSlice stringLess (tokens tbl text))).Pairwise stringLe :=
    (sortSlice_sorted _).sublist (firstSeen_sublist _)
  have hn := firstSeen_nodup (sortSlice stringLess (tokens tbl text))
  refine (hs.and hn).imp ?_
  intro a b hab
  cases hlt : stringLess a b with
  | true => rfl
  | false => exact absurd (stringLess_connected hlt hab.1) hab.2

/-- Two strictly ascending lists with the same elements are the same list. -/
theorem ascending_ext {l₁ l₂ : List GoString}
    (h₁ : l₁.Pairwise (fun a b => stringLess a b = true))
    (h₂ : l₂.Pairwise (fun a b => stringLess a b = true))
    (h : ∀ w, w ∈ l₁ ↔ w ∈ l₂) : l₁ = l₂ := by
  haveI : IsAntisymm GoString stringLe := ⟨fun _ _ h₁ h₂ => stringLe_antisymm h₁ h₂⟩
  have nd : ∀ {l : List GoString}, l.Pairwise (fun a b => stringLess a b = true) → l.Nodup :=
    fun hl => hl.imp (fun {a b} hab heq => by
      subst heq; rw [stringLess_irrefl] at hab; exact absurd hab (by decide))
  have le : ∀ {l : List GoString}, l.Pairwise (fun a b => stringLess a b = true) →
      l.Pairwise stringLe := fun hl => hl.imp (fun {a b} hab => stringLess_asymm hab)
  exact List.eq_of_perm_of_sorted ((List.perm_ext_iff_of_nodup (nd h₁) (nd h₂)).mpr h)
    (le h₁) (le h₂)

theorem count_eq_one_of_nodup {l : List GoString} {w : GoString} (hn : l.Nodup) (hw : w ∈ l) :
    l.count w = 1 := by
  induction l with
  | nil => exact absurd hw (List.not_mem_nil _)
  | cons x xs ih =>
    rw [List.nodup_cons] at hn
    rw [List.count_cons]
    by_cases hx : x = w
    · subst hx
      rw [List.count_eq_zero_of_not_mem hn.1]
      simp
    · have hmem : w ∈ xs := by
        rcases List.mem_cons.mp hw with h | h
        · exact absurd h.symm hx
        · exact h
      have hb : (x == w) = false := by simpa using hx
      rw [ih hn.2 hmem, hb]
      simp

/-! ## The functions of package `strings`, characterised -/

theorem asciiLower_of_not_upper {c : Char} (h : ¬ (65 ≤ c.toNat ∧ c.toNat ≤ 90)) :
    asciiLower c = c := by
  simp only [asciiLower, if_neg h]

/-- The fast path of `strings.ToLower` computes the same string as the rune-by-rune path. -/
theorem ToLower_eq_map (tbl : UnicodeTables) (s : GoString) :
    ToLower tbl s = s.map (unicodeToLower tbl) := by
  unfold ToLower
  by_cases hA : s.all (fun c => decide (c.toNat < 0x80)) = true
  · have hmap : s.map (unicodeToLower tbl) = s.map asciiLower := by
      apply List.map_congr_left
      intro c hc
      have := List.all_eq_true.mp hA c hc
      simp only [decide_eq_true_eq] at this
      simp only [unicodeToLower, if_pos (show c.toNat ≤ 0x7F by omega)]
    simp only [hA, if_true, hmap]
    by_cases hU : s.any (fun c => decide (65 ≤ c.toNat ∧ c.toNat ≤ 90)) = true
    · simp only [hU, Bool.not_true, Bool.false_eq_true, if_false]
    · simp only [hU, Bool.not_false, if_true]
      have : s.map asciiLower = s.map id := by
        apply List.map_congr_left
        intro c hc
        refine asciiLower_of_not_upper (fun hup => hU ?_)
        exact List.any_eq_true.mpr ⟨c, hc, by simpa using hup⟩
      rw [this, List.map_id]
  · simp [hA]

theorem HasPrefix_iff (s pre : GoString) : HasPrefix s pre = true ↔ pre <+: s := by
  simp [HasPrefix]

theorem Index_cons (c : Char) (s substr : GoString) :
    Index (c :: s) substr =
      if substr <+: c :: s then some 0 else (Index s substr).map (· + 1) := by
  rw [Index]
  by_cases h : substr <+: c :: s
  · rw [if_pos h, if_pos ((HasPrefix_iff _ _).mpr h)]
  · rw [if_neg h, if_neg (fun h' => h ((HasPrefix_iff _ _).mp h'))]

theorem Index_nil_of_ne {substr : GoString} (h : substr ≠ []) : Index [] substr = none := by
  cases substr with
  | nil => exact absurd rfl h
  | cons a as => simp [Index]

/-- What `strings.Index` returns is a position where `substr` starts, and the first one. -/
theorem Index_some {s substr : GoString} {i : Nat} (h : Index s substr = some i) :
    substr <+: s.drop i ∧ ∀ j, j < i → ¬ substr <+: s.drop j := by
  induction s generalizing i with
  | nil =>
    cases substr with
    | nil => simp [Index] at h; subst h; simp
    | cons a as => simp [Index] at h
  | cons c s ih =>
    rw [Index_cons] at h
    by_cases hp : substr <+: c :: s
    · rw [if_pos hp] at h
      cases h
      exact ⟨by simpa using hp, fun j hj => absurd hj (Nat.not_lt_zero j)⟩
    · rw [if_neg hp] at h
      cases hi : Index s substr with
      | none => rw [hi] at h; simp at h
      | some k =>
        rw [hi] at h
        simp only [Option.map_some', Option.some.injEq] at h
        subst h
        obtain ⟨h₁, h₂⟩ := ih hi
        refine ⟨by simpa using h₁, fun j hj => ?_⟩
        cases j with
        | zero => simpa using hp
        | succ j => simpa using h₂ j (by omega)

/-- When `strings.Index` returns `-1`, `substr` starts nowhere in `s`. -/
theorem Index_none {s substr : GoString} (h : Index s substr = none) :
    ∀ j, ¬ substr <+: s.drop j := by
  induction s with
  | nil =>
    cases substr with
    | nil => simp [Index] at h
    | cons a as => intro j; simp
  | cons c s ih =>
    rw [Index_cons] at h
    by_cases hp : substr <+: c :: s
    · rw [if_pos hp] at h; cases h
    · rw [if_neg hp] at h
      have hi : Index s substr = none := by
        cases hi : Index s substr with
        | none => rfl
        | some k => rw [hi] at h; simp at h
      intro j
      cases j with
      | zero => simpa using hp
      | succ j => simpa using ih hi j

theorem occurrences_skip (substr s : GoString) (k : Nat) :
    occurrences substr s k = occurrences substr (s.drop k) 0 := by
  induction s generalizing k with
  | nil => simp [occurrences]
  | cons c s ih =>
    cases k with
    | zero => simp
    | succ k => simp only [occurrences, List.drop_succ_cons]; exact ih k

theorem occurrences_of_Index_none {s substr : GoString} (h : Index s substr = none) :
    occurrences substr s 0 = 0 := by
  induction s with
  | nil => simp [occurrences]
  | cons c s ih =>
    rw [Index_cons] at h
    by_cases hp : substr <+: c :: s
    · rw [if_pos hp] at h; cases h
    · rw [if_neg hp] at h
      have hi : Index s substr = none := by
        cases hi : Index s substr with
        | none => rfl
        | some k => rw [hi] at h; simp at h
      simp only [occurrences, if_neg hp]
      exact ih hi

theorem occurrences_of_Index_some {s substr : GoString} {i : Nat} (hne : substr ≠ [])
    (h : Index s substr = some i) :
    occurrences substr s 0 = occurrences substr (s.drop (i + substr.length)) 0 + 1 := by
  have hlen : 0 < substr.length := List.length_pos.mpr hne
  induction s generalizing i with
  | nil => rw [Index_nil_of_ne hne] at h; cases h
  | cons c s ih =>
    rw [Index_cons] at h
    by_cases hp : substr <+: c :: s
    · rw [if_pos hp] at h
      cases h
      simp only [occurrences, if_pos hp]
      rw [occurrences_skip]
      have : 0 + substr.length = (substr.length - 1) + 1 := by omega
      rw [this, List.drop_succ_cons]
    · rw [if_neg hp] at h
      cases hi : Index s substr with
      | none => rw [hi] at h; simp at h
      | some k =>
        rw [hi] at h
        simp only [Option.map_some', Option.some.injEq] at h
        subst h
        simp only [occurrences, if_neg hp]
        rw [ih hi]
        have : k + 1 + substr.length = (k + substr.length) + 1 := by omega
        rw [this, List.drop_succ_cons]

/-- The loop of `strings.Count` with enough iterations for `s` adds to `n` the
number of non-overlapping occurrences found left to right. -/
theorem countLoop_eq (substr : GoString) (hne : substr ≠ []) (fuel : Nat) (s : GoString)
    (n : Nat) (hfuel : s.length < fuel) :
    countLoop substr fuel s n = n + occurrences substr s 0 := by
  have hlen : 0 < substr.length := List.length_pos.mpr hne
  induction fuel generalizing s n with
  | zero => exact absurd hfuel (Nat.not_lt_zero _)
  | succ fuel ih =>
    rw [countLoop]
    cases hi : Index s substr with
    | none => simp [occurrences_of_Index_none hi]
    | some i =>
      simp only
      have hs : 0 < s.length := by
        cases s with
        | nil => rw [Index_nil_of_ne hne] at hi; cases hi
        | cons c s => simp
      rw [ih _ _ (by rw [List.length_drop]; omega), occurrences_of_Index_some hne hi]
      omega

/-- More iterations than `len(s) + 1` do not change what the loop of `strings.Count` returns:
the loop has returned by then. -/
theorem countLoop_fuel (substr : GoString) (hne : substr ≠ []) (fuel : Nat) (s : GoString)
    (n : Nat) (hfuel : s.length < fuel) :
    countLoop substr fuel s n = countLoop substr (s.length + 1) s n := by
  rw [countLoop_eq substr hne fuel s n hfuel,
    countLoop_eq substr hne (s.length + 1) s n (Nat.lt_succ_self _)]

theorem count_eq_occurrences (c : Char) (s : GoString) :
    s.count c = occurrences [c] s 0 := by
  induction s with
  | nil => simp [occurrences]
  | cons d s ih =>
    rw [List.count_cons, occurrences]
    by_cases h : d = c
    · subst h
      have hp : [d] <+: d :: s := by simp
      simp only [if_pos hp, beq_self_eq_true, if_true, List.length_singleton, Nat.sub_self]
      rw [ih]
    · have hp : ¬ [c] <+: d :: s := by
        simp only [List.cons_prefix_cons, List.nil_prefix, and_true]
        exact fun h' => h h'.symm
      have hb : (d == c) = false := by simpa using h
      simp only [if_neg hp, hb, Bool.false_eq_true, if_false, Nat.add_zero]
      exact ih

/-- Go `strings.Count(s, substr)` for a non-empty `substr` is the number of
occurrences of `substr` in `s` counted left to right without overlap. -/
theorem Count_eq_occurrences (s substr : GoString) (hne : substr ≠ []) :
    Count s substr = occurrences substr s 0 := by
  unfold Count
  match substr, hne with
  | [c], h =>
    simp only
    split
    · exact count_eq_occurrences c s
    · rw [countLoop_eq [c] h _ _ _ (Nat.lt_succ_self _), Nat.zero_add]
  | a :: b :: r, h =>
    simp only
    rw [countLoop_eq _ h _ _ _ (Nat.lt_succ_self _), Nat.zero_add]

theorem Count_nil (s : GoString) : Count s [] = s.length + 1 := rfl

theorem Count_singleton (s : GoString) (c : Char) : Count s [c] = s.count c := by
  rw [Count_eq_occurrences s [c] (by simp), count_eq_occurrences]

theorem Index_singleton_none {s : GoString} {c : Char} (h : Index s [c] = none) : c ∉ s := by
  intro hc
  obtain ⟨a, b, rfl⟩ := List.append_of_mem hc
  have := Index_none h a.length
  simp at this

theorem Index_singleton_some {s : GoString} {c : Char} {j : Nat} (h : Index s [c] = some j) :
    s = s.take j ++ c :: s.drop (j + 1) ∧ c ∉ s.take j := by
  obtain ⟨h₁, h₂⟩ := Index_some h
  constructor
  · obtain ⟨t, ht⟩ := h₁
    have hd : s.drop (j + 1) = t := by
      have : s.drop (j + 1) = (s.drop j).drop 1 := by rw [List.drop_drop]
      rw [this, ← ht]; rfl
    rw [hd]
    conv_lhs => rw [← List.take_append_drop j s, ← ht]
    simp
  · intro hc
    obtain ⟨k, hk, hkc⟩ := List.getElem_of_mem hc
    rw [List.length_take] at hk
    rw [List.getElem_take] at hkc
    apply h₂ k (by omega)
    rw [List.drop_eq_getElem_cons (by omega), hkc]
    simp

/-! ## `strings.ReplaceAll` and `strings.Split` on a one-character pattern -/

theorem filter_ne_of_not_mem {c : Char} {s : GoString} (h : c ∉ s) :
    s.filter (fun d => d != c) = s := by
  rw [List.filter_eq_self]
  intro d hd
  simp only [bne_iff_ne, ne_eq]
  rintro rfl
  exact h hd

theorem count_drop_of_Index {s : GoString} {c : Char} {j : Nat} (h : Index s [c] = some j) :
    (s.drop (j + 1)).count c + 1 = s.count c := by
  obtain ⟨hs, hc⟩ := Index_singleton_some h
  have := congrArg (List.count c) hs
  rw [List.count_append, List.count_cons_self, List.count_eq_zero_of_not_mem hc] at this
  omega

theorem replaceLoop_singleton (c : Char) (n : Nat) (s : GoString) (h : s.count c ≤ n) :
    replaceLoop [c] [] n s = s.filter (fun d => d != c) := by
  induction n generalizing s with
  | zero =>
    rw [replaceLoop, filter_ne_of_not_mem]
    exact List.count_eq_zero.mp (by omega)
  | succ n ih =>
    rw [replaceLoop]
    cases hi : Index s [c] with
    | none => simp only; rw [filter_ne_of_not_mem (Index_singleton_none hi)]
    | some j =>
      obtain ⟨hs, hc⟩ := Index_singleton_some hi
      have hcount := count_drop_of_Index hi
      simp only [List.length_singleton, List.append_nil]
      rw [ih _ (by omega)]
      conv_rhs => rw [hs, List.filter_append, filter_ne_of_not_mem hc]
      simp

/-- Go `strings.ReplaceAll(s, c, "")` for a one-character `c` removes every `c` from `s`. -/
theorem ReplaceAll_singleton_nil (s : GoString) (c : Char) :
    ReplaceAll s [c] [] = s.filter (fun d => d != c) := by
  unfold ReplaceAll
  rw [if_neg (by simp)]
  simp only [Count_singleton]
  by_cases h : s.count c = 0
  · rw [if_pos h, filter_ne_of_not_mem (List.count_eq_zero.mp h)]
  · rw [if_neg h]
    exact replaceLoop_singleton c _ s (Nat.le_refl _)

theorem genSplitLoop_singleton (c : Char) (n : Nat) (s : GoString) (h : s.count c ≤ n) :
    genSplitLoop [c] n s = s.splitOn c := by
  have single : ∀ t : GoString, c ∉ t → t.splitOn c = [t] := by
    intro t ht
    refine List.splitOnP_eq_single _ _ ?_
    intro x hx hxc
    rw [eq_of_beq hxc] at hx
    exact ht hx
  induction n generalizing s with
  | zero =>
    rw [genSplitLoop, single s (List.count_eq_zero.mp (by omega))]
  | succ n ih =>
    rw [genSplitLoop]
    cases hi : Index s [c] with
    | none => simp only; rw [single s (Index_singleton_none hi)]
    | some j =>
      obtain ⟨hs, hc⟩ := Index_singleton_some hi
      have hcount := count_drop_of_Index hi
      simp only [List.length_singleton]
      rw [ih _ (by omega)]
      conv_rhs => rw [hs]
      have := List.splitOnP_first (· == c) (s.take j)
        (fun x hx hxc => hc (by rw [eq_of_beq hxc] at hx; exact hx)) c (beq_self_eq_true _)
        (s.drop (j + 1))
      simp only [List.splitOn]
      rw [this]

/-- Go `strings.Split(s, c)` for a one-character `c` cuts `s` at every `c`. -/
theorem Split_singleton (s : GoString) (c : Char) : Split s [c] = s.splitOn c := by
  unfold Split
  simp only
  exact genSplitLoop_singleton c _ s (by rw [Count_singleton])

theorem normalize_eq (tbl : UnicodeTables) (text : GoString) :
    normalize tbl text = (text.map (unicodeToLower tbl)).filter (fun d => d != '.') := by
  rw [normalize, ReplaceAll_singleton_nil, ToLower_eq_map]

theorem tokens_eq (tbl : UnicodeTables) (text : GoString) :
    tokens tbl text = (normalize tbl text).splitOn ' ' := by
  rw [tokens, Split_singleton]

theorem splitOn_cases (c : Char) (s : GoString) :
    (c ∉ s ∧ s.splitOn c = [s]) ∨
      ∃ a b, s = a ++ c :: b ∧ c ∉ a ∧ s.splitOn c = a :: b.splitOn c := by
  by_cases h : c ∈ s
  · right
    have hsome : ∃ j, Index s [c] = some j := by
      cases hi : Index s [c] with
      | none => exact absurd h (Index_singleton_none hi)
      | some j => exact ⟨j, rfl⟩
    obtain ⟨j, hj⟩ := hsome
    obtain ⟨hs, hc⟩ := Index_singleton_some hj
    refine ⟨s.take j, s.drop (j + 1), hs, hc, ?_⟩
    conv_lhs => rw [hs]
    exact List.splitOnP_first (· == c) (s.take j)
      (fun x hx hxc => hc (by rw [eq_of_beq hxc] at hx; exact hx)) c (beq_self_eq_true _)
      (s.drop (j + 1))
  · left
    refine ⟨h, List.splitOnP_eq_single _ _ ?_⟩
    intro x hx hxc
    rw [eq_of_beq hxc] at hx
    exact h hx

/-- An induction principle for a string cut at every `c`. -/
theorem splitOn_induction (c : Char) (P : GoString → List GoString → Prop)
    (single : ∀ s, c ∉ s → P s [s])
    (step : ∀ a b, c ∉ a → P b (b.splitOn c) → P (a ++ c :: b) (a :: b.splitOn c))
    (s : GoString) : P s (s.splitOn c) := by
  have key : ∀ n : Nat, ∀ s : GoString, s.length = n → P s (s.splitOn c) := by
    intro n
    induction n using Nat.strong_induction_on with
    | _ n ih =>
      intro s hn
      rcases splitOn_cases c s with ⟨h, he⟩ | ⟨a, b, hs, ha, he⟩
      · rw [he]; exact single s h
      · rw [he, hs]
        refine step a b ha (ih b.length ?_ b rfl)
        rw [← hn, hs, List.length_append, List.length_cons]
        omega
  exact key s.length s rfl

theorem not_mem_of_mem_splitOn (c : Char) (s : GoString) :
    ∀ t ∈ s.splitOn c, c ∉ t := by
  refine splitOn_induction c (fun _ l => ∀ t ∈ l, c ∉ t) ?_ ?_ s
  · intro s hs t ht
    rw [List.mem_singleton] at ht
    rw [ht]; exact hs
  · intro a b ha ih t ht
    rw [List.mem_cons] at ht
    rcases ht with rfl | ht
    · exact ha
    · exact ih t ht

theorem length_splitOn (c : Char) (s : GoString) :
    (s.splitOn c).length = s.count c + 1 := by
  refine splitOn_induction c (fun s l => l.length = s.count c + 1) ?_ ?_ s
  · intro s hs
    rw [List.count_eq_zero_of_not_mem hs]; rfl
  · intro a b ha ih
    rw [List.length_cons, ih, List.count_append, List.count_cons_self,
      List.count_eq_zero_of_not_mem ha]
    omega

/-! ## Occurrences in the text and occurrences in the tokens -/

theorem prefix_append_sep {substr a b : GoString} {c : Char} (hc : c ∉ substr) :
    substr <+: a ++ c :: b ↔ substr <+: a := by
  constructor
  · intro h
    rcases List.prefix_or_prefix_of_prefix h (List.prefix_append a (c :: b)) with h' | ⟨t, ht⟩
    · exact h'
    · subst ht
      rw [List.prefix_append_right_inj] at h
      rcases List.prefix_cons_iff.mp h with rfl | ⟨t', rfl, _⟩
      · simp
      · exact absurd (by simp) hc
  · intro h
    exact h.trans (List.prefix_append a (c :: b))

/-- A pattern without the separator `c` cannot lie across a `c`: its occurrences in
`a ++ c :: b` are those in `a` and those in `b`. -/
theorem occurrences_append_sep (substr : GoString) (hne : substr ≠ []) (c : Char)
    (hc : c ∉ substr) (a b : GoString) (k : Nat) (hk : k ≤ a.length) :
    occurrences substr (a ++ c :: b) k = occurrences substr a k + occurrences substr b 0 := by
  induction a generalizing k with
  | nil =>
    have hk0 : k = 0 := by simpa using hk
    subst hk0
    have hp : ¬ substr <+: c :: b := by
      intro hp
      rcases List.prefix_cons_iff.mp hp with rfl | ⟨t, rfl, _⟩
      · exact hne rfl
      · exact hc (by simp)
    simp only [List.nil_append, occurrences, if_neg hp, Nat.zero_add]
  | cons d a ih =>
    cases k with
    | succ k =>
      simp only [List.cons_append, occurrences, List.append_eq]
      exact ih k (by simpa using hk)
    | zero =>
      simp only [List.cons_append, occurrences, List.append_eq]
      have hiff : substr <+: d :: (a ++ c :: b) ↔ substr <+: d :: a := by
        rw [← List.cons_append]; exact prefix_append_sep hc
      by_cases hp : substr <+: d :: a
      · rw [if_pos hp, if_pos (hiff.mpr hp)]
        have hl := hp.length_le
        rw [List.length_cons] at hl
        rw [ih _ (by omega)]
        omega
      · rw [if_neg hp, if_neg (fun h => hp (hiff.mp h))]
        exact ih 0 (Nat.zero_le _)

theorem occurrences_splitOn (substr : GoString) (hne : substr ≠ []) (c : Char)
    (hc : c ∉ substr) (s : GoString) :
    occurrences substr s 0 = ((s.splitOn c).map (fun t => occurrences substr t 0)).sum := by
  refine splitOn_induction c
    (fun s l => occurrences substr s 0 = (l.map (fun t => occurrences substr t 0)).sum) ?_ ?_ s
  · intro s _; simp
  · intro a b _ ih
    rw [occurrences_append_sep substr hne c hc a b 0 (Nat.zero_le _), ih]
    simp

theorem occurrences_pos_of_infix {substr t : GoString} (hne : substr ≠ [])
    (h : substr <:+: t) : 0 < occurrences substr t 0 := by
  induction t with
  | nil =>
    exact absurd (List.eq_nil_of_infix_nil h) hne
  | cons c s ih =>
    rw [occurrences]
    by_cases hp : substr <+: c :: s
    · rw [if_pos hp]; omega
    · rw [if_neg hp]
      rcases List.infix_cons_iff.mp h with h' | h'
      · exact absurd h' hp
      · exact ih h'

/-- The count printed for a token is at least the number of tokens that contain it. -/
theorem containing_le_Count (tbl : UnicodeTables) (text S : GoString)
    (hS : S ∈ tokens tbl text) :
    ((tokens tbl text).filter (fun t => decide (S <:+: t))).length ≤
      Count (normalize tbl text) S := by
  by_cases hne : S = []
  · subst hne
    rw [Count_nil]
    refine (List.length_filter_le _ _).trans ?_
    rw [tokens_eq, length_splitOn]
    have := List.count_le_length ' ' (normalize tbl text)
    omega
  · rw [Count_eq_occurrences _ _ hne]
    rw [tokens_eq] at hS ⊢
    have hsp : ' ' ∉ S := not_mem_of_mem_splitOn ' ' _ S hS
    rw [occurrences_splitOn S hne ' ' hsp]
    generalize (normalize tbl text).splitOn ' ' = l
    induction l with
    | nil => simp
    | cons t l ih =>
      rw [List.filter_cons, List.map_cons, List.sum_cons]
      by_cases ht : S <:+: t
      · have := occurrences_pos_of_infix hne ht
        simp only [ht, decide_True, if_true, List.length_cons]
        omega
      · simp only [ht, decide_False, Bool.false_eq_true, if_false]
        omega

theorem count_le_containing {S L : GoString} (hsub : S <:+: L) (l : List GoString) :
    l.count L ≤ (l.filter (fun t => decide (S <:+: t))).length := by
  induction l with
  | nil => simp
  | cons t l ih =>
    rw [List.count_cons, List.filter_cons]
    by_cases ht : t = L
    · subst ht
      simp only [hsub, decide_True, if_true, List.length_cons, beq_self_eq_true]
      omega
    · have hb : (t == L) = false := by simpa using ht
      rw [hb]
      by_cases hin : S <:+: t
      · simp only [hin, decide_True, if_true, List.length_cons, Bool.false_eq_true, if_false]
        omega
      · simp only [hin, decide_False, Bool.false_eq_true, if_false]
        exact ih

theorem count_add_count_le_containing {S L : GoString} (hne : S ≠ L) (hsub : S <:+: L)
    (l : List GoString) :
    l.count S + l.count L ≤ (l.filter (fun t => decide (S <:+: t))).length := by
  induction l with
  | nil => simp
  | cons t l ih =>
    rw [List.count_cons, List.count_cons, List.filter_cons]
    by_cases hS : t = S
    · subst hS
      have hb : (t == L) = false := by simpa using hne
      simp only [List.infix_refl, decide_True, if_true, List.length_cons, beq_self_eq_true, hb,
        Bool.false_eq_true, if_false]
      omega
    · have hbS : (t == S) = false := by simpa using hS
      by_cases hL : t = L
      · subst hL
        simp only [hsub, decide_True, if_true, List.length_cons, beq_self_eq_true, hbS,
          Bool.false_eq_true, if_false]
        omega
      · have hbL : (t == L) = false := by simpa using hL
        rw [hbS, hbL]
        by_cases hin : S <:+: t
        · simp only [hin, decide_True, if_true, List.length_cons, Bool.false_eq_true, if_false]
          omega
        · simp only [hin, decide_False, Bool.false_eq_true, if_false]
          exact ih

theorem count_pos_of_mem {l : List GoString} {w : GoString} (hw : w ∈ l) : 0 < l.count w := by
  induction l with
  | nil => exact absurd hw (List.not_mem_nil _)
  | cons x xs ih =>
    rw [List.count_cons]
    rcases List.mem_cons.mp hw with h | h
    · subst h; simp
    · have := ih h; omega

theorem mem_of_mem_splitOn (c : Char) (s : GoString) :
    ∀ t ∈ s.splitOn c, ∀ x ∈ t, x ∈ s := by
  refine splitOn_induction c (fun s l => ∀ t ∈ l, ∀ x ∈ t, x ∈ s) ?_ ?_ s
  · intro s _ t ht x hx
    rw [List.mem_singleton] at ht
    rw [← ht]; exact hx
  · intro a b _ ih t ht x hx
    rw [List.mem_cons] at ht
    rw [List.mem_append, List.mem_cons]
    rcases ht with rfl | ht
    · exact Or.inl hx
    · exact Or.inr (Or.inr (ih t ht x hx))

/-- A printed call carries a token and `strings.Count` of it in the normalized text. -/
theorem mem_countMain {tbl : UnicodeTables} {text : GoString} {p : PrintfCall}
    (hp : p ∈ countMain tbl text) :
    p.word ∈ tokens tbl text ∧ p.count = Count (normalize tbl text) p.word := by
  rw [countMain_eq, List.mem_map] at hp
  obtain ⟨w, hw, rfl⟩ := hp
  rw [mem_firstSeen, (sortSlice_perm stringLess _).mem_iff] at hw
  exact ⟨hw, rfl⟩

theorem exists_countMain_of_mem {tbl : UnicodeTables} {text w : GoString}
    (hw : w ∈ tokens tbl text) : ∃ p ∈ countMain tbl text, p.word = w := by
  have : w ∈ printedTokens tbl text := (mem_printedTokens tbl text w).mpr hw
  rw [printedTokens, List.mem_map] at this
  exact this

/-! ## The verbs `%d`, `%q` and `%X` -/

theorem fmtIntegerLoop_append (fuel u : Nat) (buf : GoString) :
    fmtIntegerLoop fuel u buf = fmtIntegerLoop fuel u [] ++ buf := by
  induction fuel generalizing u buf with
  | zero => simp [fmtIntegerLoop]
  | succ fuel ih =>
    simp only [fmtIntegerLoop]
    split
    · rw [ih (u / 10) (_ :: buf), ih (u / 10) [_]]
      simp
    · simp

theorem decimalValue_append (xs : GoString) (c : Char) :
    decimalValue (xs ++ [c]) = decimalValue xs * 10 + (c.toNat - 48) := by
  simp [decimalValue, List.foldl_append]

theorem ldigit_toNat (u : Nat) (h : u < 10) : (ldigits.getD u '0').toNat = 48 + u := by
  interval_cases u <;> rfl

theorem ofNat_digit_toNat (u : Nat) (h : u < 10) : (Char.ofNat (48 + u)).toNat = 48 + u := by
  interval_cases u <;> rfl

theorem decimalValue_fmtIntegerLoop (fuel u : Nat) (h : u ≤ fuel ∨ u < 10) :
    decimalValue (fmtIntegerLoop fuel u []) = u := by
  induction fuel generalizing u with
  | zero =>
    have hu : u < 10 := by omega
    have hd := ldigit_toNat u hu
    simp only [fmtIntegerLoop, decimalValue, List.foldl_cons, List.foldl_nil, hd]
    omega
  | succ fuel ih =>
    simp only [fmtIntegerLoop]
    split
    · rw [fmtIntegerLoop_append, decimalValue_append, ih (u / 10) (by omega),
        ofNat_digit_toNat _ (by omega)]
      omega
    · have hu : u < 10 := by omega
      have hd := ldigit_toNat u hu
      simp only [decimalValue, List.foldl_cons, List.foldl_nil, hd]
      omega

/-- The digits that `%d` writes stand for the number: the digit loop has not
stopped early. -/
theorem decimalValue_fmtD (n : Nat) : decimalValue (fmtD n) = n :=
  decimalValue_fmtIntegerLoop n n (Or.inl (Nat.le_refl n))

theorem fmtIntegerLoop_digits (fuel u : Nat) (buf : GoString)
    (hbuf : ∀ c ∈ buf, 48 ≤ c.toNat ∧ c.toNat ≤ 57) (h : u ≤ fuel ∨ u < 10) :
    ∀ c ∈ fmtIntegerLoop fuel u buf, 48 ≤ c.toNat ∧ c.toNat ≤ 57 := by
  induction fuel generalizing u buf with
  | zero =>
    have hu : u < 10 := by omega
    intro c hc
    simp only [fmtIntegerLoop, List.mem_cons] at hc
    rcases hc with rfl | hc
    · rw [ldigit_toNat u hu]; omega
    · exact hbuf c hc
  | succ fuel ih =>
    simp only [fmtIntegerLoop]
    split
    · refine ih (u / 10) _ ?_ (by omega)
      intro c hc
      rw [List.mem_cons] at hc
      rcases hc with rfl | hc
      · rw [ofNat_digit_toNat _ (by omega)]; omega
      · exact hbuf c hc
    · have hu : u < 10 := by omega
      intro c hc
      rw [List.mem_cons] at hc
      rcases hc with rfl | hc
      · rw [ldigit_toNat u hu]; omega
      · exact hbuf c hc

/-- What `%d` writes consists of the characters `0`-`9`. -/
theorem fmtD_digits (n : Nat) : ∀ c ∈ fmtD n, 48 ≤ c.toNat ∧ c.toNat ≤ 57 :=
  fmtIntegerLoop_digits n n [] (fun _ h => absurd h (List.not_mem_nil _))
    (Or.inl (Nat.le_refl n))

theorem length_hexEscapeDigits (r n : Nat) : (hexEscapeDigits r n).length = n := by
  induction n with
  | zero => rfl
  | succ n ih => simp [hexEscapeDigits, ih]

theorem appendEscapedRune_of_plain (tbl : UnicodeTables) (c : Char)
    (h : writtenPlain tbl c = true) : appendEscapedRune tbl c = [c] := by
  simp only [writtenPlain, Bool.and_eq_true, bne_iff_ne, ne_eq] at h
  obtain ⟨⟨hp, hq⟩, hb⟩ := h
  simp [appendEscapedRune, hp, hq, hb]

theorem length_appendEscapedRune_of_not_plain (tbl : UnicodeTables) (c : Char)
    (h : writtenPlain tbl c = false) : 2 ≤ (appendEscapedRune tbl c).length := by
  unfold appendEscapedRune
  by_cases hq : c = '"' ∨ c = '\\'
  · rw [if_pos hq]; simp
  · rw [if_neg hq]
    have hp : IsPrint tbl c = false := by
      simp only [not_or] at hq
      simpa [writtenPlain, hq.1, hq.2] using h
    rw [hp]
    simp only [Bool.false_eq_true, if_false]
    repeat' split
    all_goals simp [length_hexEscapeDigits]

theorem length_appendEscapedRune_pos (tbl : UnicodeTables) (c : Char) :
    1 ≤ (appendEscapedRune tbl c).length := by
  cases h : writtenPlain tbl c with
  | true => rw [appendEscapedRune_of_plain tbl c h]; simp
  | false => have := length_appendEscapedRune_of_not_plain tbl c h; omega

theorem length_flatMap_escape (tbl : UnicodeTables) (s : GoString) :
    s.length ≤ (s.flatMap (appendEscapedRune tbl)).length ∧
      ((s.flatMap (appendEscapedRune tbl)).length = s.length →
        ∀ c ∈ s, writtenPlain tbl c = true) := by
  induction s with
  | nil => simp
  | cons c s ih =>
    rw [List.flatMap_cons, List.length_append, List.length_cons]
    have h1 := length_appendEscapedRune_pos tbl c
    refine ⟨by omega, fun heq d hd => ?_⟩
    rw [List.mem_cons] at hd
    cases hc : writtenPlain tbl c with
    | false =>
      have := length_appendEscapedRune_of_not_plain tbl c hc
      omega
    | true =>
      rcases hd with rfl | hd
      · exact hc
      · exact ih.2 (by omega) d hd

/-- What `%q` writes between the quotes is the string itself exactly when every
character of the string is written plain. -/
theorem flatMap_escape_eq_self_iff (tbl : UnicodeTables) (s : GoString) :
    s.flatMap (appendEscapedRune tbl) = s ↔ ∀ c ∈ s, writtenPlain tbl c = true := by
  constructor
  · intro h
    exact (length_flatMap_escape tbl s).2 (by rw [h])
  · intro h
    induction s with
    | nil => rfl
    | cons c s ih =>
      rw [List.flatMap_cons, appendEscapedRune_of_plain tbl c (h c (List.mem_cons_self _ _)),
        ih (fun d hd => h d (List.mem_cons_of_mem _ hd))]
      rfl

theorem render_eq_plainLine_iff (tbl : UnicodeTables) (p : PrintfCall) :
    p.render tbl = plainLine p.word p.count ↔ ∀ c ∈ p.word, writtenPlain tbl c = true := by
  rw [← flatMap_escape_eq_self_iff]
  simp only [PrintfCall.render, plainLine, Quote, List.append_assoc, List.cons_append,
    List.nil_append]
  constructor
  · intro h
    have h' := List.append_cancel_left h
    rw [List.cons.injEq] at h'
    exact List.append_cancel_right h'.2
  · intro h
    rw [h]

theorem udigit_spec (i : Nat) (h : i < 16) :
    isUpperHexDigit (udigits.getD i '0') = true ∧ hexValue (udigits.getD i '0') = i := by
  interval_cases i <;> exact ⟨rfl, rfl⟩

theorem fmtSbx_cons (digits : GoString) (x : Nat) (b : List Nat) :
    fmtSbx digits (x :: b) =
      digits.getD (x / 16) '0' :: digits.getD (x % 16) '0' :: fmtSbx digits b := by
  simp [fmtSbx]

theorem fmtSbx_append (digits : GoString) (a b : List Nat) :
    fmtSbx digits (a ++ b) = fmtSbx digits a ++ fmtSbx digits b := by
  simp [fmtSbx]

theorem length_fmtSbx (digits : GoString) (b : List Nat) :
    (fmtSbx digits b).length = 2 * b.length := by
  induction b with
  | nil => rfl
  | cons x b ih =>
    rw [fmtSbx_cons, List.length_cons, List.length_cons, List.length_cons, ih]
    omega

theorem fmtSbx_upperHex (b : List Nat) (hb : ∀ x ∈ b, x < 256) :
    ∀ c ∈ fmtSbx udigits b, isUpperHexDigit c = true := by
  intro c hc
  simp only [fmtSbx, List.mem_flatMap, List.mem_cons, List.mem_singleton] at hc
  obtain ⟨x, hx, hc⟩ := hc
  have hx' := hb x hx
  rcases hc with rfl | rfl | hc
  · exact (udigit_spec (x / 16) (by omega)).1
  · exact (udigit_spec (x % 16) (by omega)).1
  · exact absurd hc (List.not_mem_nil _)

/-- Reading the hex digits of `%X` back, two per byte, gives the bytes formatted. -/
theorem decodeHex_fmtSbx (b : List Nat) (hb : ∀ x ∈ b, x < 256) :
    decodeHex (fmtSbx udigits b) = b := by
  induction b with
  | nil => rfl
  | cons x b ih =>
    have hx := hb x (List.mem_cons_self _ _)
    have ih' := ih (fun y hy => hb y (List.mem_cons_of_mem _ hy))
    rw [fmtSbx_cons, decodeHex, ih', (udigit_spec (x / 16) (by omega)).2,
      (udigit_spec (x % 16) (by omega)).2]
    congr 1
    omega

theorem ofNat_lower_toNat (n : Nat) (h₁ : 65 ≤ n) (h₂ : n ≤ 90) :
    (Char.ofNat (n + 32)).toNat = n + 32 := by
  interval_cases n <;> rfl

/-- Lowercasing a printable ASCII character other than the quote and the
backslash gives a character that `%q` writes plain. -/
theorem writtenPlain_lower (tbl : UnicodeTables) (c : Char)
    (h : 0x20 ≤ c.toNat ∧ c.toNat ≤ 0x7E ∧ c.toNat ≠ 34 ∧ c.toNat ≠ 92) :
    writtenPlain tbl (unicodeToLower tbl c) = true := by
  obtain ⟨h₁, h₂, h₃, h₄⟩ := h
  have key : ∀ d : Char, 0x20 ≤ d.toNat → d.toNat ≤ 0x7E → d.toNat ≠ 34 → d.toNat ≠ 92 →
      writtenPlain tbl d = true := by
    intro d hd₁ hd₂ hd₃ hd₄
    have hq : d ≠ '"' := fun h => hd₃ (by rw [h]; rfl)
    have hb : d ≠ '\\' := fun h => hd₄ (by rw [h]; rfl)
    simp [writtenPlain, IsPrint, hq, hb, hd₁, hd₂, show d.toNat ≤ 255 by omega]
  rw [unicodeToLower, if_pos (by omega), asciiLower]
  split
  · next hup =>
    have := ofNat_lower_toNat c.toNat hup.1 hup.2
    exact key _ (by omega) (by omega) (by omega) (by omega)
  · exact key c h₁ h₂ h₃ h₄

set_option maxRecDepth 1000000 in
theorem text_printable_all :
    text.all (fun c =>
      decide (0x20 ≤ c.toNat ∧ c.toNat ≤ 0x7E ∧ c.toNat ≠ 34 ∧ c.toNat ≠ 92)) = true := by
  rfl

/-- The text of `count.go` is printable ASCII without a quote or a backslash. -/
theorem text_printable (c : Char) (hc : c ∈ text) :
    0x20 ≤ c.toNat ∧ c.toNat ≤ 0x7E ∧ c.toNat ≠ 34 ∧ c.toNat ≠ 92 := by
  have := List.all_eq_true.mp text_printable_all c hc
  simpa using this

/-- Every character of a token of the text of `count.go` is written plain by `%q`. -/
theorem tokens_text_plain (tbl : UnicodeTables) (w : GoString) (hw : w ∈ tokens tbl text)
    (c : Char) (hc : c ∈ w) : writtenPlain tbl c = true := by
  rw [tokens_eq] at hw
  have hn := mem_of_mem_splitOn ' ' _ w hw c hc
  rw [normalize_eq] at hn
  have hm := (List.mem_filter.mp hn).1
  rw [List.mem_map] at hm
  obtain ⟨c₀, hc₀, rfl⟩ := hm
  exact writtenPlain_lower tbl c₀ (text_printable c₀ hc₀)

/-! ## The run of `wait.go` -/

/-- The 16 bytes in `b` after a successful `rand.Read(b)`. -/
theorem randRead_ok (w : World) (h : w.randErr = none) :
    randRead w (makeBytes 16) = ((List.range 16).map (fun i => w.randBytes i % 256), none) := by
  simp [randRead, h, makeBytes]

theorem heartbeatLoop_trace (w : World) (uuid : GoString) (k : Nat) (r : Run) :
    (heartbeatLoop w uuid k r).trace =
      r.trace ++ (List.range k).flatMap (fun i =>
        [Effect.logPrintln (w.now (r.clock + i)) uuid, Effect.sleep (1 * Second)]) := by
  induction k generalizing r with
  | zero => simp [heartbeatLoop]
  | succ k ih =>
    rw [heartbeatLoop, ih, List.range_succ_eq_map, List.flatMap_cons, List.flatMap_map]
    simp only [List.append_assoc, Nat.add_zero]
    congr 2
    apply List.flatMap_congr
    intro i _
    simp only [Function.comp, Nat.succ_eq_add_one]
    rw [show r.clock + 1 + i = r.clock + (i + 1) by omega]

/-- A run in which `rand.Read` succeeds: ten times a heartbeat and a sleep. -/
theorem waitMain_ok (w : World) (h : w.randErr = none) :
    waitMain w =
      (List.range 10).flatMap (fun i =>
        [Effect.logPrintln (w.now i)
            (formatUUID ((List.range 16).map (fun i => w.randBytes i % 256))),
          Effect.sleep (1 * Second)]) := by
  unfold waitMain
  simp only [randRead_ok w h, heartbeatLoop_trace, List.nil_append, Nat.zero_add]

/-- A run in which `rand.Read` fails: the diagnostic and nothing else. -/
theorem waitMain_err (w : World) (err : GoString) (h : w.randErr = some err) :
    waitMain w = [Effect.fmtPrintln ["Error: ".toList, err]] := by
  simp [waitMain, randRead, h]

theorem sleeps_waitMain (w : World) (h : w.randErr = none) :
    sleeps (waitMain w) = List.replicate 10 Second := by
  rw [waitMain_ok w h]; rfl

/-! ## What the tokens are made of -/

theorem asciiLower_not_upper (c : Char) : isASCIIUpper (asciiLower c) = false := by
  unfold asciiLower
  split
  · next h =>
    have := ofNat_lower_toNat c.toNat h.1 h.2
    simp only [isASCIIUpper, this, Bool.and_eq_false_imp, decide_eq_true_eq, decide_eq_false_iff_not]
    omega
  · next h =>
    simp only [isASCIIUpper, Bool.and_eq_false_imp, decide_eq_true_eq, decide_eq_false_iff_not]
    omega

theorem printedTokens_no_space (tbl : UnicodeTables) (input w : GoString)
    (hw : w ∈ printedTokens tbl input) : ' ' ∉ w := by
  rw [mem_printedTokens, tokens_eq] at hw
  exact not_mem_of_mem_splitOn ' ' _ w hw

theorem mem_normalize_of_mem_printed {tbl : UnicodeTables} {input w : GoString}
    (hw : w ∈ printedTokens tbl input) {c : Char} (hc : c ∈ w) :
    c ∈ (input.map (unicodeToLower tbl)).filter (fun d => d != '.') := by
  rw [mem_printedTokens, tokens_eq] at hw
  have := mem_of_mem_splitOn ' ' _ w hw c hc
  rwa [normalize_eq] at this

theorem printedTokens_no_period (tbl : UnicodeTables) (input w : GoString)
    (hw : w ∈ printedTokens tbl input) : '.' ∉ w := by
  intro hc
  have := (List.mem_filter.mp (mem_normalize_of_mem_printed hw hc)).2
  simp at this

/-! ## The empty token -/

theorem splitOn_append_sep (c : Char) (a b : GoString) :
    ∃ pre, pre ≠ [] ∧ (a ++ c :: b).splitOn c = pre ++ b.splitOn c := by
  induction a with
  | nil =>
    refine ⟨[[]], by simp, ?_⟩
    simp only [List.splitOn, List.nil_append]
    rw [List.splitOnP_cons, if_pos (beq_self_eq_true c)]
    rfl
  | cons x a ih =>
    obtain ⟨pre, hne, hpre⟩ := ih
    simp only [List.splitOn] at hpre ⊢
    rw [List.cons_append, List.splitOnP_cons, hpre]
    by_cases hx : (x == c) = true
    · rw [if_pos hx]
      exact ⟨[] :: pre, by simp, rfl⟩
    · rw [if_neg hx]
      cases pre with
      | nil => exact absurd rfl hne
      | cons p ps => exact ⟨(x :: p) :: ps, by simp, rfl⟩

/-- Cutting at every `c` gives an empty piece when the string starts with `c`,
ends with `c` or holds two `c` in a row. -/
theorem nil_mem_splitOn (c : Char) (s : GoString)
    (h : (∃ b, s = c :: b) ∨ (∃ a, s = a ++ [c]) ∨ ∃ a b, s = a ++ c :: c :: b) :
    [] ∈ s.splitOn c := by
  rcases h with ⟨b, rfl⟩ | ⟨a, rfl⟩ | ⟨a, b, rfl⟩
  · simp only [List.splitOn]
    rw [List.splitOnP_cons, if_pos (beq_self_eq_true c)]
    exact List.mem_cons_self _ _
  · obtain ⟨pre, _, hpre⟩ := splitOn_append_sep c a []
    rw [hpre]
    exact List.mem_append_right _ (by simp)
  · obtain ⟨pre, _, hpre⟩ := splitOn_append_sep c a (c :: b)
    rw [hpre]
    refine List.mem_append_right _ ?_
    simp only [List.splitOn]
    rw [List.splitOnP_cons, if_pos (beq_self_eq_true c)]
    exact List.mem_cons_self _ _

theorem stringLess_nil_right (a : GoString) : stringLess a [] = false := by
  cases a <;> rfl

/-- A strictly ascending list that holds the empty string starts with it. -/
theorem head_of_ascending {l : List GoString}
    (h : l.Pairwise (fun a b => stringLess a b = true)) (hmem : [] ∈ l) :
    ∃ rest, l = [] :: rest := by
  cases l with
  | nil => exact absurd hmem (List.not_mem_nil _)
  | cons x rest =>
    rcases List.mem_cons.mp hmem with hx | hx
    · exact ⟨rest, by rw [← hx]⟩
    · have := (List.pairwise_cons.mp h).1 [] hx
      rw [stringLess_nil_right] at this
      exact absurd this (by decide)

/-- When the empty string is a token, the first `Printf` call of `main` is the one
of the empty token, with the length of the normalized text plus one. -/
theorem countMain_head_of_nil_mem (tbl : UnicodeTables) (input : GoString)
    (h : [] ∈ tokens tbl input) :
    ∃ rest, countMain tbl input = ⟨[], (normalize tbl input).length + 1⟩ :: rest := by
  have hp : [] ∈ printedTokens tbl input := (mem_printedTokens tbl input []).mpr h
  obtain ⟨rest, hrest⟩ := head_of_ascending (printedTokens_ascending tbl input) hp
  rw [printedTokens_eq] at hrest
  rw [countMain_eq, hrest]
  exact ⟨_, rfl⟩

/-! ## The number of lines -/

theorem length_countMain (tbl : UnicodeTables) (input : GoString) :
    (countMain tbl input).length = (printedTokens tbl input).length := by
  simp [printedTokens]

theorem length_printedTokens_le (tbl : UnicodeTables) (input : GoString) :
    (printedTokens tbl input).length ≤ (normalize tbl input).count ' ' + 1 := by
  rw [printedTokens_eq, ← length_splitOn, ← tokens_eq]
  exact (firstSeen_sublist _).length_le.trans (sortSlice_perm stringLess _).length_eq.le

theorem length_printedTokens_pos (tbl : UnicodeTables) (input : GoString) :
    1 ≤ (printedTokens tbl input).length := by
  have hlen : (tokens tbl input).length = (normalize tbl input).count ' ' + 1 := by
    rw [tokens_eq, length_splitOn]
  cases ht : tokens tbl input with
  | nil => rw [ht] at hlen; simp at hlen
  | cons t ts =>
    have : t ∈ printedTokens tbl input := by
      rw [mem_printedTokens, ht]; exact List.mem_cons_self _ _
    exact List.length_pos_of_mem this

theorem normalize_periods (tbl : UnicodeTables) (n : Nat) :
    normalize tbl (List.replicate n '.') = [] := by
  rw [normalize_eq]
  induction n with
  | zero => rfl
  | succ n ih =>
    rw [List.replicate_succ, List.map_cons, List.filter_cons]
    have : unicodeToLower tbl '.' = '.' := rfl
    rw [this]
    simpa using ih

/-- What `main` prints depends on the text through the normalized text only; when
that is empty, the one call is the one of the empty token with count 1. -/
theorem countMain_of_normalize_nil (tbl : UnicodeTables) (input : GoString)
    (h : normalize tbl input = []) : countMain tbl input = [⟨[], 1⟩] := by
  have : countMain tbl input =
      ((sortSlice stringLess (Split (normalize tbl input) [' '])).foldl
        (loopBody (normalize tbl input)) ⟨[], []⟩).printed := rfl
  rw [this, h]
  rfl

/-! ## Reading an identifier back -/

theorem slices_append (b : List Nat) (hlen : b.length = 16) :
    slice b 0 4 ++ slice b 4 6 ++ slice b 6 8 ++ slice b 8 10 ++ b.drop 10 = b := by
  match b, hlen with
  | [_, _, _, _, _, _, _, _, _, _, _, _, _, _, _, _], _ => rfl

theorem filter_hyphen_fmtSbx (b : List Nat) (hb : ∀ x ∈ b, x < 256) :
    (fmtSbx udigits b).filter (fun c => c != '-') = fmtSbx udigits b := by
  rw [List.filter_eq_self]
  intro c hc
  have h := fmtSbx_upperHex b hb c hc
  simp only [bne_iff_ne, ne_eq]
  rintro rfl
  exact absurd h (by decide)

/-- The bytes are read back from the identifier formatted from them. -/
theorem decodeUUID_formatUUID (b : List Nat) (hlen : b.length = 16) (hb : ∀ x ∈ b, x < 256) :
    decodeUUID (formatUUID b) = b := by
  have hs : ∀ lo hi, ∀ x ∈ slice b lo hi, x < 256 := fun lo hi x hx =>
    hb x (List.mem_of_mem_take (List.mem_of_mem_drop hx))
  have hd : ∀ x ∈ b.drop 10, x < 256 := fun x hx => hb x (List.mem_of_mem_drop hx)
  have hy : ∀ l : GoString, ('-' :: l).filter (fun c => c != '-') =
      l.filter (fun c => c != '-') := fun l => by
    rw [List.filter_cons]; rfl
  unfold decodeUUID formatUUID
  rw [List.filter_append, hy, List.filter_append, hy, List.filter_append, hy,
    List.filter_append, hy, filter_hyphen_fmtSbx _ (hs 0 4), filter_hyphen_fmtSbx _ (hs 4 6),
    filter_hyphen_fmtSbx _ (hs 6 8), filter_hyphen_fmtSbx _ (hs 8 10),
    filter_hyphen_fmtSbx _ hd, ← fmtSbx_append, ← fmtSbx_append, ← fmtSbx_append,
    ← fmtSbx_append, slices_append b hlen, decodeHex_fmtSbx b hb]

/-! ## The properties of WordFrequencyReporter and IdentifierHeartbeat -/

/-- C1: for every input text, no token is printed twice, and the printed tokens
are exactly the tokens obtained by lowercasing the text, removing every period
and splitting on single spaces; each distinct token is printed exactly once,
however often it occurs. -/
theorem C1_each_distinct_token_printed_once (tbl : UnicodeTables) (text : GoString) :
    (printedTokens tbl text).Nodup ∧
    (∀ w, w ∈ printedTokens tbl text ↔
      w ∈ ((text.map (unicodeToLower tbl)).filter (fun d => d != '.')).splitOn ' ') ∧
    (∀ w, w ∈ tokens tbl text → (printedTokens tbl text).count w = 1) := by
  refine ⟨printedTokens_nodup tbl text, fun w => ?_, fun w hw => ?_⟩
  · rw [mem_printedTokens, tokens_eq, normalize_eq]
  · exact count_eq_one_of_nodup (printedTokens_nodup tbl text)
      ((mem_printedTokens tbl text w).mpr hw)

/-- C2: for every input text and every printed line with a non-empty token T, the
printed count is `strings.Count` of T in the normalized text, which is the
number of occurrences of T as a substring of the normalized text counted left
to right without overlap; it is not the number of times T occurs in the token
list, from which it differs on the text "to store". -/
theorem C2_count_is_substring_count (tbl : UnicodeTables) (text : GoString) (p : PrintfCall)
    (hp : p ∈ countMain tbl text) (hne : p.word ≠ []) :
    p.count = Count ((text.map (unicodeToLower tbl)).filter (fun d => d != '.')) p.word ∧
    p.count =
      occurrences p.word ((text.map (unicodeToLower tbl)).filter (fun d => d != '.')) 0 ∧
    ∃ q ∈ countMain tbl "to store".toList,
      q.word = "to".toList ∧ q.count ≠ (tokens tbl "to store".toList).count q.word := by
  rw [countMain_eq, List.mem_map] at hp
  obtain ⟨w, _, rfl⟩ := hp
  rw [← normalize_eq]
  refine ⟨rfl, Count_eq_occurrences _ _ hne, ⟨"to".toList, 2⟩, ?_, rfl, ?_⟩
  · exact List.mem_cons_of_mem _ (List.mem_singleton.mpr rfl)
  · show (2 : Nat) ≠ 1
    decide

/-- C2 at the text "to store": the line of "to" carries 2, the number of
occurrences of "to" in "to store", while "to" is one token out of two. -/
theorem C2_count_is_substring_count_witness :
    (⟨"to".toList, 2⟩ : PrintfCall) ∈ countMain noTables "to store".toList ∧
    (2 : Nat) = occurrences "to".toList "to store".toList 0 ∧
    (tokens noTables "to store".toList).count "to".toList = 1 :=
  ⟨by decide,
   (C2_count_is_substring_count noTables "to store".toList ⟨"to".toList, 2⟩ (by decide)
      (by decide)).2.1,
   by decide⟩

/-- C3: for every input text, the printed tokens are strictly ascending in the
byte-wise lexicographic order of their UTF-8 bytes, and they are the distinct
tokens in first-seen order, sorted: sorting all tokens and keeping each first
occurrence gives the same list as keeping each first occurrence and sorting
afterwards. -/
theorem C3_printed_order (tbl : UnicodeTables) (text : GoString) :
    (printedTokens tbl text).Pairwise
      (fun a b => bytesLess (utf8Bytes a) (utf8Bytes b) = true) ∧
    printedTokens tbl text = sortSlice stringLess (firstSeen (tokens tbl text)) ∧
    firstSeen (sortSlice stringLess (tokens tbl text)) =
      sortSlice stringLess (firstSeen (tokens tbl text)) := by
  have hasc := printedTokens_ascending tbl text
  have hsorted : (sortSlice stringLess (firstSeen (tokens tbl text))).Pairwise
      (fun a b => stringLess a b = true) := by
    have hs := sortSlice_sorted (firstSeen (tokens tbl text))
    have hn : (sortSlice stringLess (firstSeen (tokens tbl text))).Nodup :=
      (sortSlice_perm stringLess _).nodup_iff.mpr (firstSeen_nodup _)
    refine (hs.and hn).imp ?_
    intro a b hab
    cases hlt : stringLess a b with
    | true => rfl
    | false => exact absurd (stringLess_connected hlt hab.1) hab.2
  have heq : printedTokens tbl text = sortSlice stringLess (firstSeen (tokens tbl text)) := by
    refine ascending_ext hasc hsorted (fun w => ?_)
    rw [mem_printedTokens, (sortSlice_perm stringLess _).mem_iff, mem_firstSeen]
  refine ⟨hasc.imp ?_, heq, by rw [← printedTokens_eq]; exact heq⟩
  intro a b hab
  rw [← stringLess_eq_bytesLess]
  exact hab

/-- C4: on the source text "No. No." the normalized text is "no no", the tokens
are "no", "no", and exactly one line is printed: word "no" appears 2. -/
theorem C4_scenario_no_no (tbl : UnicodeTables) :
    normalize tbl "No. No.".toList = "no no".toList ∧
    tokens tbl "No. No.".toList = ["no".toList, "no".toList] ∧
    sortSlice stringLess (tokens tbl "No. No.".toList) = ["no".toList, "no".toList] ∧
    countMain tbl "No. No.".toList = [⟨"no".toList, 2⟩] ∧
    countMainLines tbl "No. No.".toList = ["word \"no\" appears 2\n".toList] ∧
    countMainStdout tbl "No. No.".toList = "word \"no\" appears 2\n".toList :=
  ⟨rfl, rfl, rfl, rfl, rfl, rfl⟩

/-- C5: for every sequence of 16 bytes, the formatted identifier has 36
characters and is five groups of 8, 4, 4, 4 and 12 characters joined by
hyphens; every character of a group is one of 0-9, A-F, and the groups encode
the bytes 0-3, 4-5, 6-7, 8-9 and 10-15 in order, two digits per byte. -/
theorem C5_identifier_pattern (b : List Nat) (hlen : b.length = 16) (hb : ∀ x ∈ b, x < 256) :
    (formatUUID b).length = 36 ∧
    ∃ g₁ g₂ g₃ g₄ g₅ : GoString,
      formatUUID b = g₁ ++ '-' :: g₂ ++ '-' :: g₃ ++ '-' :: g₄ ++ '-' :: g₅ ∧
      g₁.length = 8 ∧ g₂.length = 4 ∧ g₃.length = 4 ∧ g₄.length = 4 ∧ g₅.length = 12 ∧
      (∀ c ∈ g₁ ++ g₂ ++ g₃ ++ g₄ ++ g₅, isUpperHexDigit c = true) ∧
      decodeHex g₁ = slice b 0 4 ∧ decodeHex g₂ = slice b 4 6 ∧ decodeHex g₃ = slice b 6 8 ∧
      decodeHex g₄ = slice b 8 10 ∧ decodeHex g₅ = slice b 10 16 ∧
      decodeHex g₁ ++ decodeHex g₂ ++ decodeHex g₃ ++ decodeHex g₄ ++ decodeHex g₅ = b := by
  have hs : ∀ lo hi, ∀ x ∈ slice b lo hi, x < 256 := fun lo hi x hx =>
    hb x (List.mem_of_mem_take (List.mem_of_mem_drop hx))
  have hd : ∀ x ∈ b.drop 10, x < 256 := fun x hx => hb x (List.mem_of_mem_drop hx)
  have hl : ∀ lo hi, hi ≤ 16 → (slice b lo hi).length = hi - lo := by
    intro lo hi h
    simp only [slice, List.length_drop, List.length_take, hlen]
    omega
  have h16 : b.drop 10 = slice b 10 16 := by
    rw [slice, List.take_of_length_le (by omega)]
  have hcat : slice b 0 4 ++ slice b 4 6 ++ slice b 6 8 ++ slice b 8 10 ++ slice b 10 16 = b := by
    match b, hlen with
    | [_, _, _, _, _, _, _, _, _, _, _, _, _, _, _, _], _ => rfl
  refine ⟨?_, fmtSbx udigits (slice b 0 4), fmtSbx udigits (slice b 4 6),
    fmtSbx udigits (slice b 6 8), fmtSbx udigits (slice b 8 10), fmtSbx udigits (b.drop 10),
    rfl, ?_, ?_, ?_, ?_, ?_, ?_, ?_, ?_, ?_, ?_, ?_, ?_⟩
  · simp only [formatUUID, List.length_append, List.length_cons, length_fmtSbx, h16, hl,
      Nat.le_refl, (by omega : 4 ≤ 16), (by omega : 6 ≤ 16), (by omega : 8 ≤ 16),
      (by omega : 10 ≤ 16)]
  · rw [length_fmtSbx, hl 0 4 (by omega)]
  · rw [length_fmtSbx, hl 4 6 (by omega)]
  · rw [length_fmtSbx, hl 6 8 (by omega)]
  · rw [length_fmtSbx, hl 8 10 (by omega)]
  · rw [length_fmtSbx, h16, hl 10 16 (by omega)]
  · intro c hc
    simp only [List.mem_append] at hc
    rcases hc with (((hc | hc) | hc) | hc) | hc
    · exact fmtSbx_upperHex _ (hs 0 4) c hc
    · exact fmtSbx_upperHex _ (hs 4 6) c hc
    · exact fmtSbx_upperHex _ (hs 6 8) c hc
    · exact fmtSbx_upperHex _ (hs 8 10) c hc
    · exact fmtSbx_upperHex _ hd c hc
  · exact decodeHex_fmtSbx _ (hs 0 4)
  · exact decodeHex_fmtSbx _ (hs 4 6)
  · exact decodeHex_fmtSbx _ (hs 6 8)
  · exact decodeHex_fmtSbx _ (hs 8 10)
  · rw [decodeHex_fmtSbx _ hd, h16]
  · rw [decodeHex_fmtSbx _ (hs 0 4), decodeHex_fmtSbx _ (hs 4 6), decodeHex_fmtSbx _ (hs 6 8),
      decodeHex_fmtSbx _ (hs 8 10), decodeHex_fmtSbx _ hd, h16]
    exact hcat

/-- C5 at the bytes 0, 17, 34, ..., 255: the identifier is
00112233-4455-6677-8899-AABBCCDDEEFF. -/
theorem C5_identifier_pattern_witness :
    formatUUID ((List.range 16).map (fun i => 17 * i)) =
      "00112233-4455-6677-8899-AABBCCDDEEFF".toList ∧
    (formatUUID ((List.range 16).map (fun i => 17 * i))).length = 36 :=
  ⟨by decide,
   (C5_identifier_pattern ((List.range 16).map (fun i => 17 * i)) (by decide) (by decide)).1⟩

/-- C6: in every run in which the random read succeeds, exactly 10 heartbeat
lines are emitted and each of them carries the same identifier, the one
formatted from the 16 bytes read before the loop. -/
theorem C6_ten_heartbeats_one_identifier (w : World) (h : w.randErr = none) :
    (heartbeatLines (waitMain w)).length = 10 ∧
    (∀ line ∈ heartbeatLines (waitMain w),
      line.2 = formatUUID ((List.range 16).map (fun i => w.randBytes i % 256))) ∧
    heartbeatLines (waitMain w) =
      (List.range 10).map (fun i =>
        (w.now i, formatUUID ((List.range 16).map (fun i => w.randBytes i % 256)))) := by
  have heq : heartbeatLines (waitMain w) =
      (List.range 10).map (fun i =>
        (w.now i, formatUUID ((List.range 16).map (fun i => w.randBytes i % 256)))) := by
    rw [waitMain_ok w h]; rfl
  refine ⟨by rw [heq]; simp, ?_, heq⟩
  intro line hl
  rw [heq, List.mem_map] at hl
  obtain ⟨i, _, rfl⟩ := hl
  rfl

/-- C6 in a world whose entropy is 200, 217, 234, ...: ten heartbeat lines with
the identifier C8D9EAFB-0C1D-2E3F-5061-728394A5B6C7. -/
theorem C6_ten_heartbeats_one_identifier_witness :
    okWorld.randErr = none ∧
    heartbeatLines (waitMain okWorld) =
      (List.range 10).map (fun i => (1000 + i, "C8D9EAFB-0C1D-2E3F-5061-728394A5B6C7".toList)) :=
  ⟨rfl, (C6_ten_heartbeats_one_identifier okWorld rfl).2.2.trans (by decide)⟩

/-- C7: in every run in which the random read returns an error, no heartbeat
line is emitted, no sleep is performed, and the only effect of the program is
one diagnostic line, which begins with "Error: " and ends with the error. -/
theorem C7_random_read_failure (w : World) (err : GoString) (h : w.randErr = some err) :
    waitMain w = [Effect.fmtPrintln ["Error: ".toList, err]] ∧
    heartbeatLines (waitMain w) = [] ∧
    sleeps (waitMain w) = [] ∧
    diagnosticLines (waitMain w) = ["Error: ".toList ++ ' ' :: err ++ [Char.ofNat 10]] ∧
    ∀ line ∈ diagnosticLines (waitMain w),
      "Error: ".toList <+: line ∧ err ++ [Char.ofNat 10] <:+ line := by
  rw [waitMain_err w err h]
  refine ⟨rfl, rfl, rfl, ?_, ?_⟩
  · simp [diagnosticLines, Sprintln, List.intercalate]
  · intro line hl
    have : line = "Error: ".toList ++ ' ' :: err ++ [Char.ofNat 10] := by
      simpa [diagnosticLines, Sprintln, List.intercalate] using hl
    subst this
    refine ⟨⟨' ' :: err ++ [Char.ofNat 10], by simp⟩, ⟨"Error: ".toList ++ [' '], by simp⟩⟩

/-- C7 in a world whose random read fails with "EOF": the run prints the line
"Error:  EOF" and does nothing else. -/
theorem C7_random_read_failure_witness :
    errWorld.randErr = some "EOF".toList ∧
    diagnosticLines (waitMain errWorld) = ["Error:  EOF\n".toList] ∧
    heartbeatLines (waitMain errWorld) = [] :=
  ⟨rfl, by decide, (C7_random_read_failure errWorld "EOF".toList rfl).2.1⟩

/-- C8 fails on the text made of one double quote: the line printed is
word "\"" appears 1, where the token is not written character for character. -/
theorem C8_counterexample :
    countMain noTables ['"'] = [⟨['"'], 1⟩] ∧
    countMainLines noTables ['"'] = ["word \"\\\"\" appears 1\n".toList] ∧
    countMainLines noTables ['"'] ≠ [plainLine ['"'] 1] := by
  decide

/-- C8, amended: every output line is `word <Q> appears <N>` and a newline, where
<Q> is the token as `%q` quotes it: between two literal quotes, every character
of the token as `strconv` escapes it.  The token stands there character for
character exactly when all its characters are printable and none is a quote
or a backslash, which is so for every token of the text of `count.go`.  <N> is
the count in decimal digits. -/
theorem C8_line_form (tbl : UnicodeTables) (input : GoString) (p : PrintfCall)
    (hp : p ∈ countMain tbl input) :
    p.word ∈ tokens tbl input ∧
    p.render tbl =
      "word ".toList ++ '"' :: p.word.flatMap (appendEscapedRune tbl) ++
        '"' :: " appears ".toList ++ fmtD p.count ++ [Char.ofNat 10] ∧
    (p.render tbl = plainLine p.word p.count ↔ ∀ c ∈ p.word, writtenPlain tbl c = true) ∧
    decimalValue (fmtD p.count) = p.count ∧
    (∀ c ∈ fmtD p.count, 48 ≤ c.toNat ∧ c.toNat ≤ 57) ∧
    ∀ q ∈ countMain tbl text, q.render tbl = plainLine q.word q.count := by
  refine ⟨(mem_countMain hp).1, ?_, render_eq_plainLine_iff tbl p, decimalValue_fmtD _,
    fmtD_digits _, ?_⟩
  · simp [PrintfCall.render, Quote]
  · intro q hq
    exact (render_eq_plainLine_iff tbl q).mpr (tokens_text_plain tbl q.word (mem_countMain hq).1)

/-- C8, amended, at the text "No. No.": the line is word "no" appears 2. -/
theorem C8_line_form_witness :
    (⟨"no".toList, 2⟩ : PrintfCall) ∈ countMain noTables "No. No.".toList ∧
    PrintfCall.render noTables ⟨"no".toList, 2⟩ = "word \"no\" appears 2\n".toList :=
  ⟨by decide,
   (C8_line_form noTables "No. No.".toList ⟨"no".toList, 2⟩ (by decide)).2.1.trans (by decide)⟩

/-- C9: for every input text and every printed token S, the printed count is at
least the number of tokens, counted with multiplicity, that contain S as a
substring; so it is at least the word frequency of every token L that
contains S, and at least the word frequency of S. -/
theorem C9_count_at_least_containing_tokens (tbl : UnicodeTables) (input : GoString)
    (p : PrintfCall) (hp : p ∈ countMain tbl input) :
    ((tokens tbl input).filter (fun t => decide (p.word <:+: t))).length ≤ p.count ∧
    (∀ L, p.word <:+: L → (tokens tbl input).count L ≤ p.count) ∧
    (tokens tbl input).count p.word ≤ p.count := by
  obtain ⟨hw, hc⟩ := mem_countMain hp
  have key := containing_le_Count tbl input p.word hw
  rw [← hc] at key
  exact ⟨key, fun L hL => (count_le_containing hL _).trans key,
    (count_le_containing (List.infix_refl _) _).trans key⟩

/-- C9 at the text "to store to": the count printed for "to" is 3, and 3 tokens
contain "to". -/
theorem C9_count_at_least_containing_tokens_witness :
    (⟨"to".toList, 3⟩ : PrintfCall) ∈ countMain noTables "to store to".toList ∧
    ((tokens noTables "to store to".toList).filter
      (fun t => decide ("to".toList <:+: t))).length ≤ 3 :=
  ⟨by decide,
   (C9_count_at_least_containing_tokens noTables "to store to".toList ⟨"to".toList, 3⟩
      (by decide)).1⟩

/-- C10: for every input text, when a token S is a substring of a different
token L of the same token sequence, S is printed, and the count printed for S
is strictly greater than the number of times S occurs in the token sequence. -/
theorem C10_substring_token_overcounted (tbl : UnicodeTables) (input S L : GoString)
    (hS : S ∈ tokens tbl input) (hL : L ∈ tokens tbl input) (hne : S ≠ L) (hsub : S <:+: L) :
    (∃ p ∈ countMain tbl input, p.word = S) ∧
    ∀ p ∈ countMain tbl input, p.word = S → (tokens tbl input).count S < p.count := by
  refine ⟨exists_countMain_of_mem hS, ?_⟩
  intro p hp hpS
  obtain ⟨_, hc⟩ := mem_countMain hp
  have key := containing_le_Count tbl input S hS
  rw [hpS] at hc
  rw [← hc] at key
  have h₁ := count_add_count_le_containing hne hsub (tokens tbl input)
  have h₂ := count_pos_of_mem hL
  omega

/-- C10 at the text "to store", with S = "to" and L = "store": "to" is one token
and its line carries 2. -/
theorem C10_substring_token_overcounted_witness :
    (tokens noTables "to store".toList).count "to".toList = 1 ∧
    ∀ p ∈ countMain noTables "to store".toList, p.word = "to".toList → 1 < p.count :=
  ⟨by decide,
   (C10_substring_token_overcounted noTables "to store".toList "to".toList "store".toList
      (by decide) (by decide) (by decide) (by decide)).2⟩

/-- C11: for every input text, no printed token contains a space, none contains
a period and none contains an ASCII upper-case letter, given that the lower-case
table of the runtime maps no rune above U+007F to an ASCII upper-case letter
(the table is consulted for such runes only, and for the last part only). -/
theorem C11_printed_tokens_normalized (tbl : UnicodeTables) (input : GoString)
    (htbl : ∀ c : Char, 0x7F < c.toNat → isASCIIUpper (tbl.lowerCase c) = false) :
    ∀ w ∈ printedTokens tbl input,
      ' ' ∉ w ∧ '.' ∉ w ∧ ∀ c ∈ w, isASCIIUpper c = false := by
  intro w hw
  refine ⟨printedTokens_no_space tbl input w hw, printedTokens_no_period tbl input w hw, ?_⟩
  intro c hc
  have hm := (List.mem_filter.mp (mem_normalize_of_mem_printed hw hc)).1
  rw [List.mem_map] at hm
  obtain ⟨c₀, _, rfl⟩ := hm
  unfold unicodeToLower
  split
  · exact asciiLower_not_upper c₀
  · next h => exact htbl c₀ (by omega)

/-- C11 at the text "Ab. C": the printed tokens are "ab" and "c". -/
theorem C11_printed_tokens_normalized_witness :
    printedTokens noTables "Ab. C".toList = ["ab".toList, "c".toList] ∧
    ∀ w ∈ printedTokens noTables "Ab. C".toList,
      ' ' ∉ w ∧ '.' ∉ w ∧ ∀ c ∈ w, isASCIIUpper c = false :=
  ⟨by decide,
   C11_printed_tokens_normalized noTables "Ab. C".toList (fun c hc => by
     simp only [noTables, id, isASCIIUpper, Bool.and_eq_false_imp, decide_eq_true_eq,
       decide_eq_false_iff_not]
     omega)⟩

/-- C12: every run in which the random read succeeds is exactly ten repetitions
of a heartbeat print followed by a sleep of one second: 20 effects, the print
of iteration i at position 2i and a one-second sleep at position 2i+1, a sleep
last, ten sleeps of one second, 10 seconds in total. -/
theorem C12_print_then_sleep (w : World) (h : w.randErr = none) :
    waitMain w =
      (List.range 10).flatMap (fun i =>
        [Effect.logPrintln (w.now i)
            (formatUUID ((List.range 16).map (fun i => w.randBytes i % 256))),
          Effect.sleep Second]) ∧
    (waitMain w).length = 20 ∧
    (∀ i, i < 10 →
      (waitMain w)[2 * i]? = some (Effect.logPrintln (w.now i)
        (formatUUID ((List.range 16).map (fun i => w.randBytes i % 256)))) ∧
      (waitMain w)[2 * i + 1]? = some (Effect.sleep Second)) ∧
    (waitMain w).getLast? = some (Effect.sleep Second) ∧
    sleeps (waitMain w) = List.replicate 10 Second ∧
    (sleeps (waitMain w)).sum = 10 * Second := by
  refine ⟨?_, ?_, ?_, ?_, sleeps_waitMain w h, ?_⟩
  · rw [waitMain_ok w h]; rfl
  · rw [waitMain_ok w h]; rfl
  · intro i hi
    rw [waitMain_ok w h]
    interval_cases i <;> exact ⟨rfl, rfl⟩
  · rw [waitMain_ok w h]; rfl
  · rw [sleeps_waitMain w h, List.sum_replicate, smul_eq_mul]

/-- C12 in a world whose random read succeeds: the run sleeps ten times one second. -/
theorem C12_print_then_sleep_witness :
    okWorld.randErr = none ∧ sleeps (waitMain okWorld) = List.replicate 10 1000000000 :=
  ⟨rfl, (C12_print_then_sleep okWorld rfl).2.2.2.2.1⟩

/-- C13: for every input text whose normalized form starts with a space, ends
with a space or holds two consecutive spaces, the empty string is a token; it is
printed, its line is the first line, and the count on it is the number of code
points of the normalized text plus one. -/
theorem C13_empty_token (tbl : UnicodeTables) (input : GoString)
    (h : (∃ b, normalize tbl input = ' ' :: b) ∨ (∃ a, normalize tbl input = a ++ [' ']) ∨
      ∃ a b, normalize tbl input = a ++ ' ' :: ' ' :: b) :
    [] ∈ tokens tbl input ∧
    [] ∈ printedTokens tbl input ∧
    (countMain tbl input).head? = some ⟨[], (normalize tbl input).length + 1⟩ ∧
    (countMainLines tbl input).head? =
      some ("word \"\" appears ".toList ++ fmtD ((normalize tbl input).length + 1) ++
        [Char.ofNat 10]) := by
  have hmem : [] ∈ tokens tbl input := by
    rw [tokens_eq]; exact nil_mem_splitOn ' ' _ h
  obtain ⟨rest, hrest⟩ := countMain_head_of_nil_mem tbl input hmem
  refine ⟨hmem, (mem_printedTokens tbl input []).mpr hmem, ?_, ?_⟩
  · rw [hrest]; rfl
  · rw [countMainLines, hrest]; rfl

/-- C13 at the text "a  b", with two consecutive spaces: the first line is
word "" appears 5, for the 4 characters of the normalized text. -/
theorem C13_empty_token_witness :
    normalize noTables "a  b".toList = "a  b".toList ∧
    countMainLines noTables "a  b".toList =
      ["word \"\" appears 5\n".toList, "word \"a\" appears 1\n".toList,
        "word \"b\" appears 1\n".toList] ∧
    (countMain noTables "a  b".toList).head? = some ⟨[], 5⟩ :=
  ⟨by decide, by decide,
   (C13_empty_token noTables "a  b".toList
      (Or.inr (Or.inr ⟨"a".toList, "b".toList, by decide⟩))).2.2.1⟩

/-- C14: formatting is injective on sequences of 16 bytes: two such sequences
with the same identifier are equal, and the bytes are read back from the
identifier by decoding the hex digits of its five groups in order. -/
theorem C14_formatUUID_injective (b b' : List Nat) (hlen : b.length = 16)
    (hlen' : b'.length = 16) (hb : ∀ x ∈ b, x < 256) (hb' : ∀ x ∈ b', x < 256) :
    (formatUUID b = formatUUID b' → b = b') ∧
    decodeUUID (formatUUID b) = b ∧ decodeUUID (formatUUID b') = b' := by
  have h₁ := decodeUUID_formatUUID b hlen hb
  have h₂ := decodeUUID_formatUUID b' hlen' hb'
  refine ⟨fun heq => ?_, h₁, h₂⟩
  rw [← h₁, ← h₂, heq]

/-- C14 at the bytes 0, 17, ..., 255 and 255, 254, ..., 240: the identifiers
differ, and decoding the first gives its bytes back. -/
theorem C14_formatUUID_injective_witness :
    formatUUID ((List.range 16).map (fun i => 17 * i)) ≠
      formatUUID ((List.range 16).map (fun i => 255 - i)) ∧
    decodeUUID "00112233-4455-6677-8899-AABBCCDDEEFF".toList =
      (List.range 16).map (fun i => 17 * i) :=
  ⟨fun heq => absurd
     ((C14_formatUUID_injective ((List.range 16).map (fun i => 17 * i))
        ((List.range 16).map (fun i => 255 - i)) (by decide) (by decide) (by decide)
        (by decide)).1 heq) (by decide),
   by decide⟩

/-- C15: for every input text at least one line is printed and at most the
number of spaces of the normalized text plus one; for the empty text and for
every text made of periods only, exactly one line is printed, and it is
word "" appears 1. -/
theorem C15_number_of_lines (tbl : UnicodeTables) (input : GoString) :
    1 ≤ (countMainLines tbl input).length ∧
    (countMainLines tbl input).length ≤ (normalize tbl input).count ' ' + 1 ∧
    countMainLines tbl [] = ["word \"\" appears 1\n".toList] ∧
    ∀ n, countMainLines tbl (List.replicate n '.') = ["word \"\" appears 1\n".toList] := by
  have hlen : (countMainLines tbl input).length = (printedTokens tbl input).length := by
    simp [countMainLines, printedTokens]
  refine ⟨?_, ?_, rfl, ?_⟩
  · rw [hlen]; exact length_printedTokens_pos tbl input
  · rw [hlen]; exact length_printedTokens_le tbl input
  · intro n
    rw [countMainLines, countMain_of_normalize_nil tbl _ (normalize_periods tbl n)]
    rfl

end Supertine
